import Mathlib

/-!
# Verification of the `digitalsim` combinational-logic simulator

A shallow embedding of `src/EE24B021_A4/digitalsim.py` in Lean 4, together
with theorems settling the specification claims about it.

Conventions of the embedding:
* Python strings become `String`; all string manipulation is re-implemented
  over `List Char` with structural recursion so that every definition is
  executable by the kernel.
* Python dictionaries keyed by signal names become functions
  `String → Option String` (a missing key, whose access raises `KeyError`,
  is `none`) or association lists `List (String × List String)` whose key
  order mirrors Python's insertion-ordered `dict` iteration.
* Fallible Python code (functions that may raise) returns `Except`.
* Python `set` values inside `topo_sort` become duplicate-free `List`s;
  only membership, removal and emptiness are used, so the representation
  order is irrelevant.
-/

/-- The four gate kinds admitted by the gate-line regular expression
`(?P<type>AND|OR|XOR|NOT)` in `parse_netlist`. -/
inductive GType where
  | AND | OR | XOR | NOT
deriving DecidableEq, Repr

/-- One parsed gate: `{"name": out, "type": typ, "inputs": args}` from
`parse_netlist`. -/
structure Gate where
  name : String
  type : GType
  inputs : List String
deriving DecidableEq, Repr

/-- The tuple `(inputs, outputs, gates, stimuli)` returned by
`parse_netlist`. -/
structure Netlist where
  inputs : List String
  outputs : List String
  gates : List Gate
  stimuli : List (Int × List String)
deriving DecidableEq, Repr

/-- Errors that the Python `simulate` can raise: the `ValueError` from
`topo_sort` (cyclic dependencies), a `KeyError` from a `signals[...]`
lookup, and the (unreachable for parser-produced netlists)
`StopIteration`/`IndexError` faults from gate lookup / short argument
lists. -/
inductive SimErr where
  | cyclicDep
  | keyError (name : String)
  | gateFault
deriving DecidableEq, Repr

/-! ## Character-level helpers (Python string primitives) -/

/-- Python `\s` for the ASCII range: space, tab, newline, carriage return,
vertical tab, form feed. -/
def isPySpace (c : Char) : Bool :=
  c = ' ' || c = '\t' || c = '\n' || c = '\r' || c = '\x0b' || c = '\x0c'

/-- First character of an identifier: `[A-Za-z_]`. -/
def isIdentStart (c : Char) : Bool := c.isAlpha || c = '_'

/-- Later characters of an identifier: `[A-Za-z0-9_]`. -/
def isIdentChar (c : Char) : Bool := c.isAlphanum || c = '_'

/-- The character class `[A-Za-z0-9_,\s]` of the regex's `args` group. -/
def isArgClass (c : Char) : Bool :=
  c.isAlphanum || c = '_' || c = ',' || isPySpace c

/-- Python `str.strip()` (for the ASCII whitespace actually occurring in
netlist documents). -/
def pyStrip (s : String) : String :=
  String.mk (((s.data.dropWhile isPySpace).reverse.dropWhile isPySpace).reverse)

/-- Helper for `pySplitLines`: split at `'\n'`. -/
def splitLinesAux : List Char → List Char → List String
  | [], cur => [String.mk cur.reverse]
  | c :: rest, cur =>
    if c = '\n' then String.mk cur.reverse :: splitLinesAux rest []
    else splitLinesAux rest (c :: cur)

/-- Python `str.splitlines()` for `'\n'`-separated text.  (Python drops a
final empty fragment after a trailing newline; the fragment is blank and
`parse_netlist` filters blank lines away immediately, so the two agree on
everything `parse_netlist` sees.) -/
def pySplitLines (s : String) : List String := splitLinesAux s.data []

/-- Helper for `pySplitWS`. -/
def splitWSAux : List Char → List Char → List String
  | [], cur => if cur.isEmpty then [] else [String.mk cur.reverse]
  | c :: rest, cur =>
    if isPySpace c then
      (if cur.isEmpty then [] else [String.mk cur.reverse]) ++ splitWSAux rest []
    else splitWSAux rest (c :: cur)

/-- Python `str.split()` with no argument: split on whitespace runs,
discarding empty fragments. -/
def pySplitWS (s : String) : List String := splitWSAux s.data []

/-- Helper for `pySplitComma`. -/
def splitCommaAux : List Char → List Char → List String
  | [], cur => [String.mk cur.reverse]
  | c :: rest, cur =>
    if c = ',' then String.mk cur.reverse :: splitCommaAux rest []
    else splitCommaAux rest (c :: cur)

/-- Python `str.split(",")`. -/
def pySplitComma (s : String) : List String := splitCommaAux s.data []

/-- `pre.data` is a prefix of `s.data`: Python `str.startswith`. -/
def strStarts (s pre : String) : Bool := pre.data.isPrefixOf s.data

/-- Drop the first `n` characters: used for Python `split(":", 1)[1]`
after a `startswith` check has pinned the position of the first colon. -/
def strDropN (s : String) (n : Nat) : String := String.mk (s.data.drop n)

/-- Decimal digits to a number; `none` on a non-digit. -/
def digitsToNat? : List Char → Nat → Option Nat
  | [], acc => some acc
  | c :: rest, acc =>
    if c.isDigit then digitsToNat? rest (acc * 10 + (c.toNat - '0'.toNat))
    else none

/-- Python `int(token)` for a whitespace-free token: an optional sign
followed by decimal digits.  (Python additionally accepts underscores
between digits and surrounding whitespace; stimulus tokens are produced by
`str.split()` and the netlists at issue use plain decimal literals, where
the two semantics agree.) -/
def pyInt? (s : String) : Option Int :=
  match s.data with
  | [] => none
  | '-' :: rest =>
    if rest.isEmpty then none
    else (digitsToNat? rest 0).map (fun n => -(n : Int))
  | '+' :: rest =>
    if rest.isEmpty then none
    else (digitsToNat? rest 0).map (fun n => (n : Int))
  | l => (digitsToNat? l 0).map (fun n => (n : Int))

/-! ## The gate-line grammar

`parse_netlist` matches each GATES line against

```
^(?P<out>[A-Za-z_][A-Za-z0-9_]*)\s*=\s*(?P<type>AND|OR|XOR|NOT)\s*\(\s*
  (?P<args>[A-Za-z0-9_,\s]+)\s*\)\s*$
```

The hand-rolled matcher below is equivalent:
* maximal-munch for the output identifier agrees with the regex because a
  shorter identifier prefix would be followed by another identifier
  character, which can match neither `\s*` nor `=`;
* the four kind literals start with pairwise distinct letters, so the
  alternation needs no backtracking;
* the `args` class excludes `)`, so the `\)` of the pattern is the first
  `)` after the `(`; the region between them must be non-empty, drawn from
  the class, and followed only by trailing whitespace.  The captured group
  differs from that region at most in leading whitespace, which the
  per-token `strip` erases, so splitting the whole region on `,` and
  stripping each token yields exactly the Python argument tuple. -/

/-- Consume `[A-Za-z_][A-Za-z0-9_]*` from the front; return it and the
remainder. -/
def takeIdent : List Char → Option (List Char × List Char)
  | [] => none
  | c :: rest =>
    if isIdentStart c then
      some (c :: rest.takeWhile isIdentChar, rest.dropWhile isIdentChar)
    else none

/-- Skip `\s*`. -/
def dropSpaces (l : List Char) : List Char := l.dropWhile isPySpace

/-- Match one of the literals `AND`, `OR`, `XOR`, `NOT`. -/
def matchKind : List Char → Option (GType × List Char)
  | 'A' :: 'N' :: 'D' :: rest => some (GType.AND, rest)
  | 'O' :: 'R' :: rest => some (GType.OR, rest)
  | 'X' :: 'O' :: 'R' :: rest => some (GType.XOR, rest)
  | 'N' :: 'O' :: 'T' :: rest => some (GType.NOT, rest)
  | _ => none

/-- The full gate-line match, returning the named groups `out`, `type`
and the comma-split, stripped argument tokens. -/
def gateLineMatch (line : String) : Option (String × GType × List String) :=
  match takeIdent line.data with
  | none => none
  | some (outChars, r1) =>
    match dropSpaces r1 with
    | '=' :: r3 =>
      match matchKind (dropSpaces r3) with
      | none => none
      | some (typ, r5) =>
        match dropSpaces r5 with
        | '(' :: r7 =>
          let inner := r7.takeWhile (fun c => !(c = ')'))
          match r7.dropWhile (fun c => !(c = ')')) with
          | ')' :: r8 =>
            if inner.isEmpty then none
            else if inner.all isArgClass && r8.all isPySpace then
              some (String.mk outChars, typ,
                (pySplitComma (String.mk inner)).map pyStrip)
            else none
          | _ => none
        | _ => none
    | _ => none

/-! ## parse_netlist -/

/-- The GATES-section loop of `parse_netlist` (lines 57–76): consume gate
lines until a `STIMULUS:` line or end of input, validating grammar, arity
and name freshness.  Returns the gates and the unconsumed lines. -/
def parseGatesLoop (defined : List String) (acc : List Gate) :
    List String → Except String (List Gate × List String)
  | [] => .ok (acc, [])
  | l :: rest =>
    if strStarts l "STIMULUS:" then .ok (acc, l :: rest)
    else
      match gateLineMatch l with
      | none => .error ("Invalid gate line: '" ++ l ++ "'")
      | some (out, typ, args) =>
        if typ = GType.NOT ∧ args.length ≠ 1 then
          .error ("Gate " ++ out ++ " of type NOT must have 1 input")
        else if typ ≠ GType.NOT ∧ args.length ≠ 2 then
          .error ("Gate " ++ out ++ " of type must have 2 inputs")
        else if out ∈ defined then
          .error ("Gate " ++ out ++ " defined more than once")
        else
          parseGatesLoop (defined ++ [out]) (acc ++ [⟨out, typ, args⟩]) rest

/-- The STIMULUS-section loop of `parse_netlist` (lines 88–100): each line
is an integer time followed by exactly `nInputs` binary tokens; times must
be strictly increasing, starting from the sentinel `last_time = -1`. -/
def parseStimLoop (nInputs : Nat) (lastTime : Int)
    (acc : List (Int × List String)) :
    List String → Except String (List (Int × List String))
  | [] => .ok acc
  | l :: rest =>
    let parts := pySplitWS l
    if parts.length ≠ nInputs + 1 then
      .error ("Invalid stimulus line: " ++ l)
    else
      match parts with
      | [] => .error ("Invalid stimulus line: " ++ l)
      | p0 :: vals =>
        match pyInt? p0 with
        | none => .error ("invalid literal for int(): " ++ p0)
        | some t =>
          if t ≤ lastTime then
            .error "Stimulus times must be strictly increasing"
          else if vals.any (fun v => !(v = "0" || v = "1")) then
            .error ("Stimulus values must be 0 or 1: " ++ l)
          else
            parseStimLoop nInputs t (acc ++ [(t, vals)]) rest

/-- `parse_netlist` (digitalsim.py lines 21–102): strip and drop blank and
`#` lines, then read the four sections `INPUTS:`, `OUTPUTS:`, `GATES:`,
`STIMULUS:` in order. -/
def parse_netlist (text : String) : Except String Netlist :=
  let lines := ((pySplitLines text).map pyStrip).filter
    (fun l => !l.isEmpty && !(strStarts l "#"))
  match lines with
  | [] => .error "Expected 'INPUTS:' section"
  | l0 :: rest0 =>
    if !(strStarts l0 "INPUTS:") then .error "Expected 'INPUTS:' section"
    else
      let inputs := pySplitWS (pyStrip (strDropN l0 7))
      if inputs.isEmpty then .error "INPUTS section cannot be empty"
      else
        match rest0 with
        | [] => .error "Expected 'OUTPUTS:' section"
        | l1 :: rest1 =>
          if !(strStarts l1 "OUTPUTS:") then .error "Expected 'OUTPUTS:' section"
          else
            let outputs := pySplitWS (pyStrip (strDropN l1 8))
            if outputs.isEmpty then .error "OUTPUTS section cannot be empty"
            else
              match rest1 with
              | [] => .error "Expected 'GATES:' section"
              | l2 :: rest2 =>
                if !(strStarts l2 "GATES:") then .error "Expected 'GATES:' section"
                else
                  match parseGatesLoop inputs [] rest2 with
                  | .error e => .error e
                  | .ok (gates, rest3) =>
                    if gates.isEmpty then .error "GATES section cannot be empty"
                    else
                      match rest3 with
                      | [] => .error "Expected 'STIMULUS:' section"
                      | l3 :: rest4 =>
                        if !(strStarts l3 "STIMULUS:") then
                          .error "Expected 'STIMULUS:' section"
                        else
                          match parseStimLoop inputs.length (-1) [] rest4 with
                          | .error e => .error e
                          | .ok stimuli => .ok ⟨inputs, outputs, gates, stimuli⟩

/-! ## topo_sort -/

/-- The names of all gates: `gate_names = {g["name"] for g in gates}`. -/
def gateNames (gates : List Gate) : List String := gates.map (fun g => g.name)

/-- The dependency set of one gate after the filtering step
`deps[g] = {d for d in deps[g] if d in gate_names}`: its argument names,
deduplicated (Python `set(g["inputs"])`), restricted to gate outputs. -/
def depList (gates : List Gate) (g : Gate) : List String :=
  g.inputs.dedup.filter (fun d => (gateNames gates).contains d)

/-- `deps = {g["name"]: set(g["inputs"]) for g in gates}` after filtering,
as an insertion-ordered association list. -/
def initDeps (gates : List Gate) : List (String × List String) :=
  gates.map (fun g => (g.name, depList gates g))

/-- Total number of remaining dependency pairs; the loop variant. -/
def depsWeight (deps : List (String × List String)) : Nat :=
  (deps.map (fun p => p.2.length)).sum

/-- The `while ready:` loop of `topo_sort` (lines 120–127).  Each
iteration pops the last `ready` element (`ready.pop()`), appends it to
`order`, erases it from every dependency set, and appends (in key order)
every gate whose dependency set just became empty.  The loop removes one
`ready` entry and at least as many dependency pairs as it adds `ready`
entries, so `ready.length + depsWeight deps` strictly decreases; running
the structural recursion on that much fuel therefore reproduces the
unbounded Python loop exactly (the fuel can never be exhausted while
`ready` is non-empty, which `kahn_invariant` below makes precise). -/
def kahnLoop (deps : List (String × List String)) (ready order : List String) :
    Nat → List String
  | 0 => order
  | fuel + 1 =>
    match ready.getLast? with
    | none => order
    | some node =>
      kahnLoop (deps.map (fun p => (p.1, p.2.erase node)))
        (ready.dropLast ++
          (deps.filter
            (fun p => p.2.contains node && (p.2.erase node).isEmpty)).map
            (fun p => p.1))
        (order ++ [node]) fuel

/-- `topo_sort` (lines 108–132).  It returns the emitted order of gate
names; the Python code pairs each name with `type_lookup[name]`, which is
recovered in `simulate` below by the same unique-name lookup, so the pairs
carry no extra information for parser-produced (duplicate-free) gate
lists. -/
def topo_sort (gates : List Gate) : Except String (List String) :=
  let deps := initDeps gates
  let ready := (deps.filter (fun p => p.2.isEmpty)).map (fun p => p.1)
  let order := kahnLoop deps ready [] (ready.length + depsWeight deps)
  if order.length = gates.length then .ok order
  else .error "Cyclic or unresolved gate dependencies detected"

/-- The value of `order` when the `while ready:` loop of `topo_sort`
finishes (named for use in the correctness lemmas). -/
def topoLoopResult (gates : List Gate) : List String :=
  let deps := initDeps gates
  let ready := (deps.filter (fun p => p.2.isEmpty)).map (fun p => p.1)
  kahnLoop deps ready [] (ready.length + depsWeight deps)

/-! ## eval_gate and simulate -/

/-- `eval_gate` (lines 138–148).  Signal values are the strings `"0"` and
`"1"`; a too-short argument list (Python `IndexError`) is `none`.  The
`else` branch raising `ValueError` on an unknown kind is unreachable: the
parser's regex only produces the four `GType` constructors. -/
def eval_gate : GType → List String → Option String
  | GType.NOT, a :: _ => some (if a = "1" then "0" else "1")
  | GType.AND, a :: b :: _ => some (if a = "1" ∧ b = "1" then "1" else "0")
  | GType.OR, a :: b :: _ => some (if a = "1" ∨ b = "1" then "1" else "0")
  | GType.XOR, a :: b :: _ => some (if a ≠ b then "1" else "0")
  | _, _ => none

/-- `signals[n] = v` on the dictionary of current signal values. -/
def updateSig (sig : String → Option String) (n v : String) :
    String → Option String :=
  fun s => if s = n then some v else sig s

/-- `for name, val in zip(inputs, values): signals[name] = val`
(`zip` stops at the shorter list). -/
def setInputs (sig : String → Option String) :
    List String → List String → (String → Option String)
  | i :: is', v :: vs => setInputs (updateSig sig i v) is' vs
  | _, _ => sig

/-- `[signals[a] for a in g["inputs"]]`, left to right; the first missing
name raises `KeyError`. -/
def lookupArgs (sig : String → Option String) :
    List String → Except SimErr (List String)
  | [] => .ok []
  | a :: as' =>
    match sig a with
    | none => .error (SimErr.keyError a)
    | some v =>
      match lookupArgs sig as' with
      | .error e => .error e
      | .ok vs => .ok (v :: vs)

/-- The gate-evaluation loop of `simulate` (lines 167–170): for each name
in the resolved order, find its gate (`next(g for g in gates ...)`), look
up its argument values and write its output value. -/
def evalGates (gates : List Gate) :
    List String → (String → Option String) →
    Except SimErr (String → Option String)
  | [], sig => .ok sig
  | gname :: rest, sig =>
    match gates.find? (fun g => g.name == gname) with
    | none => .error SimErr.gateFault
    | some g =>
      match lookupArgs sig g.inputs with
      | .error e => .error e
      | .ok vals =>
        match eval_gate g.type vals with
        | none => .error SimErr.gateFault
        | some v => evalGates gates rest (updateSig sig gname v)

/-- The trace-recording loop of `simulate` (lines 172–176):
`waves[name] += signals[name]` for each name of the given list (inputs
followed by outputs); a missing signal raises `KeyError`. -/
def record (sig : String → Option String) :
    List String → (String → String) → Except SimErr (String → String)
  | [], w => .ok w
  | n :: ns, w =>
    match sig n with
    | none => .error (SimErr.keyError n)
    | some v => record sig ns (fun s => if s = n then w s ++ v else w s)

/-- The per-event loop of `simulate` (lines 161–176).  The `signals`
dictionary persists from one event to the next, exactly as in Python. -/
def runEvents (inputs outputs : List String) (gates : List Gate)
    (order : List String) :
    List (Int × List String) → (String → Option String) →
    (String → String) → Except SimErr (String → String)
  | [], _, w => .ok w
  | (_, vals) :: rest, sig, w =>
    match evalGates gates order (setInputs sig inputs vals) with
    | .error e => .error e
    | .ok sig2 =>
      match record sig2 (inputs ++ outputs) w with
      | .error e => .error e
      | .ok w2 => runEvents inputs outputs gates order rest sig2 w2

/-- `simulate` (lines 154–178).  The wave dictionary
`{s: "" for s in inputs + outputs}` becomes the function constantly `""`;
the only keys ever read or written are members of `inputs ++ outputs`,
where the two representations agree. -/
def simulate (nl : Netlist) : Except SimErr (String → String) :=
  match topo_sort nl.gates with
  | .error _ => .error SimErr.cyclicDep
  | .ok order =>
    runEvents nl.inputs nl.outputs nl.gates order nl.stimuli
      (fun _ => none) (fun _ => "")

/-- `main`'s pipeline restricted to the core: parse, then simulate
(`parsed = parse_netlist(text); waves = simulate(parsed)`). -/
def runSim (text : String) : Option (String → String) :=
  match parse_netlist text with
  | .error _ => none
  | .ok nl => (simulate nl).toOption

/-! ## Semantic vocabulary for the claims -/

/-- Decidable equality of `Except` results (used to state concrete runs). -/
instance {ε α : Type} [DecidableEq ε] [DecidableEq α] :
    DecidableEq (Except ε α) := fun a b =>
  match a, b with
  | .error e, .error f =>
    if h : e = f then isTrue (by rw [h])
    else isFalse (fun hc => h (Except.error.inj hc))
  | .ok x, .ok y =>
    if h : x = y then isTrue (by rw [h])
    else isFalse (fun hc => h (Except.ok.inj hc))
  | .error _, .ok _ => isFalse (fun hc => Except.noConfusion hc)
  | .ok _, .error _ => isFalse (fun hc => Except.noConfusion hc)

/-- Boolean signal values as the strings the simulator manipulates. -/
def boolStr (b : Bool) : String := if b then "1" else "0"

/-- The gate-to-gate dependency graph: `DepEdge gates a b` holds when the
gate named `a` lists the output `b` of another gate among its arguments
(so `a`'s evaluation depends on `b`'s). -/
def DepEdge (gates : List Gate) (a b : String) : Prop :=
  ∃ g ∈ gates, g.name = a ∧ b ∈ depList gates g

/-- The dependency graph has no (directed, non-empty) cycle. -/
def AcyclicGates (gates : List Gate) : Prop :=
  ∀ s, ¬ Relation.TransGen (DepEdge gates) s s

/-- `a` occurs strictly before `b` in the list `l`. -/
def Precedes (l : List String) (a b : String) : Prop :=
  a ∈ l ∧ b ∈ l ∧ l.indexOf a < l.indexOf b

/-- `ord` is a complete, duplicate-free topological order of the gates:
it lists exactly the gate names, and every gate-type argument of a gate
appears strictly before the gate itself. -/
def ValidTopoOrder (gates : List Gate) (ord : List String) : Prop :=
  ord.Nodup ∧ (∀ x ∈ ord, x ∈ gateNames gates) ∧
  (∀ g ∈ gates, g.name ∈ ord) ∧
  (∀ g ∈ gates, ∀ d ∈ depList gates g, Precedes ord d g.name)

/-- Arity discipline enforced by the parser (lines 67–70): `NOT` has one
argument, the binary kinds have two. -/
def arityOk (g : Gate) : Prop :=
  (g.type = GType.NOT → g.inputs.length = 1) ∧
  (g.type ≠ GType.NOT → g.inputs.length = 2)

instance (l : List String) (a b : String) : Decidable (Precedes l a b) := by
  unfold Precedes
  infer_instance

instance (gates : List Gate) (ord : List String) :
    Decidable (ValidTopoOrder gates ord) := by
  unfold ValidTopoOrder
  infer_instance

instance (g : Gate) : Decidable (arityOk g) := by
  unfold arityOk
  infer_instance

/-- The value a signal map assigns to a gate: the gate evaluated on the
looked-up values of its arguments. -/
def evalOf (sig : String → Option String) (g : Gate) : Option String :=
  match lookupArgs sig g.inputs with
  | .ok vals => eval_gate g.type vals
  | .error _ => none

/-- The dependency set of `g` after the names in `popped` have been
erased: the state of `deps[g.name]` in `topo_sort` once `order = popped`. -/
def curFilter (gates : List Gate) (popped : List String) (g : Gate) :
    List String :=
  (depList gates g).filter (fun d => !(popped.contains d))

/-- The dependency association list after the names in `popped` have been
erased from every dependency set (the state of `deps` in `topo_sort` once
`order = popped`). -/
def curDeps (gates : List Gate) (popped : List String) :
    List (String × List String) :=
  gates.map (fun g => (g.name, curFilter gates popped g))

/-! ## Concrete documents and netlists used by the claims -/

/-- The C3 scenario document. -/
def docAnd3 : String :=
  "INPUTS: A B\nOUTPUTS: C\nGATES:\nC = AND(A, B)\nSTIMULUS:\n0 0 0\n1 1 0\n2 1 1"

/-- A document whose single gate has the undefined argument `Z`. -/
def docUndefArg : String :=
  "INPUTS: A B\nOUTPUTS: C\nGATES:\nC = AND(A, Z)\nSTIMULUS:\n0 0 0"

/-- The parse of `docUndefArg`. -/
def nlUndefArg : Netlist :=
  ⟨["A", "B"], ["C"], [⟨"C", GType.AND, ["A", "Z"]⟩], [(0, ["0", "0"])]⟩

/-- A document whose OUTPUTS entry `A` repeats a primary input, with one
stimulus event. -/
def docDupOut : String :=
  "INPUTS: A B\nOUTPUTS: A\nGATES:\nC = AND(A, B)\nSTIMULUS:\n0 0 0"

/-- A document whose gate argument `1A` starts with a digit. -/
def docDigitArg : String :=
  "INPUTS: A B\nOUTPUTS: C\nGATES:\nC = AND(1A, B)\nSTIMULUS:\n0 0 0"

/-- A document whose OUTPUTS entry `X` names neither an input nor a gate,
with one stimulus event. -/
def docUndefOut : String :=
  "INPUTS: A\nOUTPUTS: X\nGATES:\nY = NOT(A)\nSTIMULUS:\n0 1"

/-- The cyclic gate pair `A = AND(B, x)`, `B = AND(A, y)`. -/
def gatesCyc : List Gate :=
  [⟨"A", GType.AND, ["B", "x"]⟩, ⟨"B", GType.AND, ["A", "y"]⟩]

/-- A gate line `C = AND(<digit>A, B)` whose first argument token starts
with the decimal digit `n`. -/
def digitArgLine (n : Nat) : String :=
  String.mk (['C', ' ', '=', ' ', 'A', 'N', 'D', '('] ++
    Char.ofNat (48 + n) :: ['A', ',', ' ', 'B', ')'])

/-! # Theorems -/

/-! ## List and Boolean bridges -/

theorem contains_true_iff (l : List String) (d : String) :
    l.contains d = true ↔ d ∈ l := List.elem_iff

theorem not_contains_iff (l : List String) (d : String) :
    (!(l.contains d)) = true ↔ d ∉ l := by
  constructor
  · intro h hm
    rw [(contains_true_iff l d).mpr hm] at h
    cases h
  · intro h
    cases hc : l.contains d
    · rfl
    · exact absurd ((contains_true_iff l d).mp hc) h

theorem contains_false_iff (l : List String) (d : String) :
    l.contains d = false ↔ d ∉ l := by
  constructor
  · intro h hm
    rw [(contains_true_iff l d).mpr hm] at h
    cases h
  · intro h
    cases hc : l.contains d
    · rfl
    · exact absurd ((contains_true_iff l d).mp hc) h

theorem getLast?_split {α : Type} {l : List α} {a : α}
    (h : l.getLast? = some a) : ∃ t, l = t ++ [a] := by
  induction l with
  | nil => cases h
  | cons x xs ih =>
    cases xs with
    | nil =>
      simp [List.getLast?] at h
      exact ⟨[], by simp [h]⟩
    | cons y ys =>
      rw [List.getLast?_cons_cons] at h
      obtain ⟨t, ht⟩ := ih h
      exact ⟨x :: t, by rw [ht]; rfl⟩

theorem filter_not_contains_eq_nil_iff (l popped : List String) :
    l.filter (fun d => !(popped.contains d)) = [] ↔ ∀ d ∈ l, d ∈ popped := by
  rw [List.filter_eq_nil_iff]
  constructor
  · intro h d hd
    by_contra hm
    exact h d hd ((not_contains_iff popped d).mpr hm)
  · intro h d hd hc
    exact (not_contains_iff popped d).mp hc (h d hd)

theorem eq_of_mem_of_erase_nil {L : List String} {node d : String}
    (h : L.erase node = []) (hd : d ∈ L) : d = node := by
  by_contra hne
  have : d ∈ L.erase node := (List.mem_erase_of_ne hne).mpr hd
  rw [h] at this
  cases this

theorem eq_singleton_of_nodup_of_all_eq {F : List String} {node : String}
    (hnd : F.Nodup) (hm : node ∈ F) (hall : ∀ d ∈ F, d = node) :
    F = [node] := by
  cases F with
  | nil => cases hm
  | cons a t =>
    have ha : a = node := hall a (by simp)
    subst ha
    cases t with
    | nil => rfl
    | cons b u =>
      have hb : b = a := hall b (by simp)
      exact absurd (hb ▸ List.mem_cons_self b u) (List.nodup_cons.mp hnd).1

/-! ## The weight measure of the Kahn loop -/

theorem depsWeight_erase (deps : List (String × List String)) (node : String) :
    depsWeight (deps.map (fun p => (p.1, p.2.erase node))) +
      deps.countP (fun p => p.2.contains node) = depsWeight deps := by
  induction deps with
  | nil => simp [depsWeight]
  | cons p ps ih =>
    simp only [depsWeight, List.map_cons, List.map_map, List.sum_cons,
      List.countP_cons] at ih ⊢
    by_cases h : node ∈ p.2
    · have hc : (p.2.contains node) = true := (contains_true_iff _ _).mpr h
      have hl := List.length_erase_of_mem h
      have hpos : 1 ≤ p.2.length := List.length_pos.mpr (List.ne_nil_of_mem h)
      simp only [hc, if_true]
      omega
    · have hc : (p.2.contains node) = false := (contains_false_iff _ _).mpr h
      rw [List.erase_of_not_mem h]
      simp only [hc, Bool.false_eq_true, if_false]
      omega

theorem newly_length_le (deps : List (String × List String)) (node : String) :
    ((deps.filter
        (fun p => p.2.contains node && (p.2.erase node).isEmpty)).map
      (fun p => p.1)).length ≤
      deps.countP (fun p => p.2.contains node) := by
  rw [List.length_map, ← List.countP_eq_length_filter]
  exact List.countP_mono_left (fun p _ h => (Bool.and_eq_true _ _ |>.mp h).1)

theorem kahn_measure_le (deps : List (String × List String))
    (t : List String) (node : String) :
    (t ++ (deps.filter
        (fun p => p.2.contains node && (p.2.erase node).isEmpty)).map
      (fun p => p.1)).length +
      depsWeight (deps.map (fun p => (p.1, p.2.erase node))) ≤
      t.length + depsWeight deps := by
  have h1 := depsWeight_erase deps node
  have h2 := newly_length_le deps node
  simp only [List.length_append]
  omega

/-! ## The evolving dependency state -/

theorem depList_nodup (gates : List Gate) (g : Gate) :
    (depList gates g).Nodup := (List.nodup_dedup _).filter _

theorem mem_depList (gates : List Gate) (g : Gate) (d : String) :
    d ∈ depList gates g ↔ d ∈ g.inputs ∧ d ∈ gateNames gates := by
  simp only [depList, List.mem_filter, List.mem_dedup]
  exact and_congr_right (fun _ => contains_true_iff _ _)

theorem curFilter_nil (gates : List Gate) (g : Gate) :
    curFilter gates [] g = depList gates g := by
  simp only [curFilter]
  apply List.filter_eq_self.mpr
  intro d _
  rfl

theorem curFilter_step (gates : List Gate) (popped : List String)
    (node : String) (g : Gate) :
    (curFilter gates popped g).erase node =
      curFilter gates (popped ++ [node]) g := by
  have hnd : (curFilter gates popped g).Nodup :=
    (depList_nodup gates g).filter _
  rw [hnd.erase_eq_filter, curFilter, curFilter, List.filter_filter]
  apply List.filter_congr
  intro d _
  by_cases hdn : d = node <;> by_cases hp : d ∈ popped <;>
    simp [hdn, hp, bne_iff_ne]

theorem curDeps_nil (gates : List Gate) : curDeps gates [] = initDeps gates := by
  simp only [curDeps, initDeps]
  apply List.map_congr_left
  intro g _
  rw [curFilter_nil]

theorem curDeps_step (gates : List Gate) (popped : List String) (node : String) :
    (curDeps gates popped).map (fun p => (p.1, p.2.erase node)) =
      curDeps gates (popped ++ [node]) := by
  simp only [curDeps, List.map_map]
  apply List.map_congr_left
  intro g _
  simp only [Function.comp]
  rw [curFilter_step]

theorem keys_filter_nodup (gates : List Gate)
    (hnd : (gateNames gates).Nodup) (q : String × List String → Bool)
    (popped : List String) :
    (((curDeps gates popped).filter q).map (fun p => p.1)).Nodup := by
  have h1 : ((curDeps gates popped).map (fun p => p.1)) = gateNames gates := by
    simp [curDeps, gateNames]
  have h2 : List.Sublist (((curDeps gates popped).filter q).map (fun p => p.1))
      ((curDeps gates popped).map (fun p => p.1)) :=
    (List.filter_sublist _).map _
  exact List.Nodup.sublist h2 (h1 ▸ hnd)

theorem mem_keys_filter (gates : List Gate) (popped : List String)
    (q : String × List String → Bool) (y : String) :
    (y ∈ ((curDeps gates popped).filter q).map (fun p => p.1)) ↔
      ∃ g ∈ gates, g.name = y ∧ q (g.name, curFilter gates popped g) = true := by
  simp only [curDeps, List.mem_map, List.mem_filter, List.mem_map]
  constructor
  · rintro ⟨p, ⟨⟨g, hg, rfl⟩, hq⟩, rfl⟩
    exact ⟨g, hg, rfl, hq⟩
  · rintro ⟨g, hg, rfl, hq⟩
    exact ⟨(g.name, curFilter gates popped g), ⟨⟨g, hg, rfl⟩, hq⟩, rfl⟩

/-! ## Precedence facts -/

theorem precedes_mono_append {l : List String} {a b : String}
    (h : Precedes l a b) (l2 : List String) : Precedes (l ++ l2) a b := by
  obtain ⟨ha, hb, hlt⟩ := h
  exact ⟨List.mem_append_left _ ha, List.mem_append_left _ hb, by
    rw [List.indexOf_append_of_mem ha, List.indexOf_append_of_mem hb]
    exact hlt⟩

theorem precedes_new_last {order : List String} {node d : String}
    (hd : d ∈ order) (hnode : node ∉ order) :
    Precedes (order ++ [node]) d node := by
  refine ⟨List.mem_append_left _ hd, List.mem_append_right _ (by simp), ?_⟩
  rw [List.indexOf_append_of_mem hd, List.indexOf_append_of_not_mem hnode]
  have := List.indexOf_lt_length.mpr hd
  simp only [List.indexOf_cons_self]
  omega

/-! ## Correctness of the Kahn loop -/

theorem kahn_exit_frontier (gates : List Gate) (order : List String)
    (H6 : ∀ g ∈ gates, curFilter gates order g = [] → g.name ∈ order) :
    ∀ g ∈ gates, g.name ∉ order → ∃ d ∈ depList gates g, d ∉ order := by
  intro g hg hgo
  by_contra hcon
  push_neg at hcon
  exact hgo (H6 g hg ((filter_not_contains_eq_nil_iff _ _).mpr hcon))

/-- The full loop invariant of the `while ready:` loop in `topo_sort`.
Starting from a state reachable with `order` already emitted, the loop's
result is duplicate-free, consists of gate names, is topologically sorted,
and every unemitted gate still has an unemitted dependency. -/
theorem kahn_invariant (gates : List Gate)
    (hnd : (gateNames gates).Nodup) :
    ∀ (fuel : Nat) (ready order : List String),
    ready.length + depsWeight (curDeps gates order) ≤ fuel →
    order.Nodup →
    (∀ x ∈ order, x ∈ gateNames gates) →
    ready.Nodup →
    (∀ x ∈ ready, x ∈ gateNames gates ∧ x ∉ order) →
    (∀ g ∈ gates, g.name ∈ ready → curFilter gates order g = []) →
    (∀ g ∈ gates, g.name ∈ order → curFilter gates order g = []) →
    (∀ g ∈ gates, curFilter gates order g = [] →
      g.name ∈ order ∨ g.name ∈ ready) →
    (∀ g ∈ gates, g.name ∈ order → ∀ d ∈ depList gates g,
      Precedes order d g.name) →
    (kahnLoop (curDeps gates order) ready order fuel).Nodup ∧
    (∀ x ∈ kahnLoop (curDeps gates order) ready order fuel,
      x ∈ gateNames gates) ∧
    (∀ g ∈ gates, g.name ∈ kahnLoop (curDeps gates order) ready order fuel →
      ∀ d ∈ depList gates g,
        Precedes (kahnLoop (curDeps gates order) ready order fuel) d g.name) ∧
    (∀ g ∈ gates, g.name ∉ kahnLoop (curDeps gates order) ready order fuel →
      ∃ d ∈ depList gates g,
        d ∉ kahnLoop (curDeps gates order) ready order fuel) := by
  intro fuel
  induction fuel with
  | zero =>
    intro ready order hfuel H1 H2 _H3 _H4 _H5 _H8 H6 H7
    have hready : ready = [] := by
      have : ready.length = 0 := by omega
      exact List.length_eq_zero.mp this
    subst hready
    refine ⟨H1, H2, H7, kahn_exit_frontier gates order ?_⟩
    intro g hg hf
    rcases H6 g hg hf with h | h
    · exact h
    · cases h
  | succ fuel ih =>
    intro ready order hfuel H1 H2 H3 H4 H5 H8 H6 H7
    cases hlast : ready.getLast? with
    | none =>
      have hready : ready = [] := by
        cases ready with
        | nil => rfl
        | cons x xs => rw [List.getLast?_eq_getLast _ (by simp)] at hlast; cases hlast
      subst hready
      have hres : kahnLoop (curDeps gates order) [] order (fuel + 1) = order := rfl
      rw [hres]
      refine ⟨H1, H2, H7, kahn_exit_frontier gates order ?_⟩
      intro g hg hf
      rcases H6 g hg hf with h | h
      · exact h
      · cases h
    | some node =>
      obtain ⟨t, ht⟩ := getLast?_split hlast
      subst ht
      -- facts about the popped node
      have hnodeN : node ∈ gateNames gates := (H4 node (by simp)).1
      have hnodeO : node ∉ order := (H4 node (by simp)).2
      obtain ⟨hTnd, -, hdisjT⟩ := List.nodup_append.mp H3
      have hnodeT : node ∉ t := fun h => hdisjT h (by simp)
      -- one unfolding step of the loop
      have hstep : kahnLoop (curDeps gates order) (t ++ [node]) order (fuel + 1)
          = kahnLoop (curDeps gates (order ++ [node]))
              (t ++ ((curDeps gates order).filter
                (fun p => p.2.contains node && (p.2.erase node).isEmpty)).map
                  (fun p => p.1))
              (order ++ [node]) fuel := by
        rw [kahnLoop, hlast]
        simp only [List.dropLast_concat]
        rw [curDeps_step]
      rw [hstep]
      -- the freshly readied gates
      set NL := ((curDeps gates order).filter
        (fun p => p.2.contains node && (p.2.erase node).isEmpty)).map
          (fun p => p.1) with hNLdef
      have hNLmem : ∀ y, y ∈ NL ↔ ∃ g ∈ gates, g.name = y ∧
          node ∈ curFilter gates order g ∧
          (curFilter gates order g).erase node = [] := by
        intro y
        rw [hNLdef, mem_keys_filter]
        constructor
        · rintro ⟨g, hg, rfl, hq⟩
          obtain ⟨hc, he⟩ := (Bool.and_eq_true _ _).mp hq
          exact ⟨g, hg, rfl, (contains_true_iff _ _).mp hc,
            List.isEmpty_iff.mp he⟩
        · rintro ⟨g, hg, rfl, hc, he⟩
          exact ⟨g, hg, rfl, (Bool.and_eq_true _ _).mpr
            ⟨(contains_true_iff _ _).mpr hc, List.isEmpty_iff.mpr he⟩⟩
      have hNLprops : ∀ y ∈ NL, y ∈ gateNames gates ∧ y ∉ order ∧
          y ∉ t ∧ y ≠ node := by
        intro y hy
        obtain ⟨g, hg, rfl, hc, _he⟩ := (hNLmem y).mp hy
        have hne : curFilter gates order g ≠ [] := fun h0 => by
          rw [h0] at hc; cases hc
        refine ⟨List.mem_map_of_mem _ hg, ?_, ?_, ?_⟩
        · exact fun h => hne (H8 g hg h)
        · exact fun h => hne (H5 g hg (List.mem_append_left _ h))
        · exact fun h => hne (H5 g hg (by simp [h]))
      have hNLnd : NL.Nodup := keys_filter_nodup gates hnd _ order
      -- re-established invariants
      have hfuel' : (t ++ NL).length +
          depsWeight (curDeps gates (order ++ [node])) ≤ fuel := by
        have hm := kahn_measure_le (curDeps gates order) t node
        rw [curDeps_step] at hm
        have hl : (t ++ [node]).length = t.length + 1 := by simp
        rw [← hNLdef] at hm
        omega
      have H1' : (order ++ [node]).Nodup := by
        rw [List.nodup_append]
        exact ⟨H1, List.nodup_singleton node,
          fun x hx hxn => hnodeO ((List.mem_singleton.mp hxn) ▸ hx)⟩
      have H2' : ∀ x ∈ order ++ [node], x ∈ gateNames gates := by
        intro x hx
        rcases List.mem_append.mp hx with h | h
        · exact H2 x h
        · exact (List.mem_singleton.mp h) ▸ hnodeN
      have H3' : (t ++ NL).Nodup := by
        rw [List.nodup_append]
        exact ⟨hTnd, hNLnd, fun y hy hyNL => (hNLprops y hyNL).2.2.1 hy⟩
      have H4' : ∀ x ∈ t ++ NL, x ∈ gateNames gates ∧ x ∉ order ++ [node] := by
        intro x hx
        rcases List.mem_append.mp hx with h | h
        · obtain ⟨hN, hO⟩ := H4 x (List.mem_append_left _ h)
          refine ⟨hN, fun hm => ?_⟩
          rcases List.mem_append.mp hm with h' | h'
          · exact hO h'
          · exact hnodeT ((List.mem_singleton.mp h') ▸ h)
        · obtain ⟨hN, hO, _hT, hne⟩ := hNLprops x h
          refine ⟨hN, fun hm => ?_⟩
          rcases List.mem_append.mp hm with h' | h'
          · exact hO h'
          · exact hne (List.mem_singleton.mp h')
      have H5' : ∀ g ∈ gates, g.name ∈ t ++ NL →
          curFilter gates (order ++ [node]) g = [] := by
        intro g hg hm
        rw [← curFilter_step]
        rcases List.mem_append.mp hm with h | h
        · rw [H5 g hg (List.mem_append_left _ h)]
          rfl
        · obtain ⟨g', hg', hname, _hc, he⟩ := (hNLmem g.name).mp h
          have : g' = g := List.inj_on_of_nodup_map hnd hg' hg hname
          rw [← this]
          exact he
      have H8' : ∀ g ∈ gates, g.name ∈ order ++ [node] →
          curFilter gates (order ++ [node]) g = [] := by
        intro g hg hm
        rw [← curFilter_step]
        rcases List.mem_append.mp hm with h | h
        · rw [H8 g hg h]; rfl
        · rw [H5 g hg (by simp [List.mem_singleton.mp h])]; rfl
      have H6' : ∀ g ∈ gates, curFilter gates (order ++ [node]) g = [] →
          g.name ∈ order ++ [node] ∨ g.name ∈ t ++ NL := by
        intro g hg hf
        rw [← curFilter_step] at hf
        by_cases hnodeF : node ∈ curFilter gates order g
        · right
          refine List.mem_append_right _ ((hNLmem g.name).mpr ⟨g, hg, rfl, hnodeF, hf⟩)
        · have hF : curFilter gates order g = [] := by
            rw [List.erase_of_not_mem hnodeF] at hf; exact hf
          rcases H6 g hg hF with ho | hr
          · exact Or.inl (List.mem_append_left _ ho)
          · rcases List.mem_append.mp hr with hT | hN
            · exact Or.inr (List.mem_append_left _ hT)
            · exact Or.inl (List.mem_append_right _ hN)
      have H7' : ∀ g ∈ gates, g.name ∈ order ++ [node] →
          ∀ d ∈ depList gates g, Precedes (order ++ [node]) d g.name := by
        intro g hg hm d hd
        rcases List.mem_append.mp hm with h | h
        · exact precedes_mono_append (H7 g hg h d hd) [node]
        · have hn : g.name = node := List.mem_singleton.mp h
          have hF : curFilter gates order g = [] :=
            H5 g hg (by simp [hn])
          have hdo : d ∈ order :=
            (filter_not_contains_eq_nil_iff _ _).mp hF d hd
          rw [hn]
          exact precedes_new_last hdo hnodeO
      exact ih (t ++ NL) (order ++ [node]) hfuel' H1' H2' H3' H4' H5' H8' H6' H7'

/-- **C1.** For every gate kind and every combination of boolean inputs
(in declared order), `eval_gate` returns exactly the truth-table result:
NOT(a) = ¬a, AND(a,b) = a∧b, OR(a,b) = a∨b, XOR(a,b) = (a ≠ b). -/
theorem C1_gate_truth_tables : ∀ a b : Bool,
    eval_gate GType.NOT [boolStr a] = some (boolStr (!a)) ∧
    eval_gate GType.AND [boolStr a, boolStr b] = some (boolStr (a && b)) ∧
    eval_gate GType.OR [boolStr a, boolStr b] = some (boolStr (a || b)) ∧
    eval_gate GType.XOR [boolStr a, boolStr b] = some (boolStr (a != b)) := by
  decide

/-- **C3.** Parsing the document with inputs `A B`, outputs `C`, gate
`C = AND(A, B)` and stimulus `0 0 0`, `1 1 0`, `2 1 1` succeeds with the
expected netlist, and simulating it produces exactly the traces
A = "011", B = "001", C = "001". -/
theorem C3_and_scenario :
    (parse_netlist docAnd3).toOption =
      some ⟨["A", "B"], ["C"], [⟨"C", GType.AND, ["A", "B"]⟩],
        [(0, ["0", "0"]), (1, ["1", "0"]), (2, ["1", "1"])]⟩ ∧
    (runSim docAnd3).map (fun w => (w "A", w "B", w "C")) =
      some ("011", "001", "001") := by
  decide

/-- **C5, counterexample.** A parsed netlist whose gate has the undefined
argument `Z` is *not* rejected at resolution time: `topo_sort` succeeds,
and the run instead fails with a `KeyError` lookup failure while
simulating the first stimulus event. -/
theorem C5_counterexample :
    (parse_netlist docUndefArg).toOption = some nlUndefArg ∧
    topo_sort nlUndefArg.gates = Except.ok ["C"] ∧
    (simulate nlUndefArg).map (fun _ => ()) =
      Except.error (SimErr.keyError "Z") := by
  decide

/-- **C6, counterexample.** A parser-accepted netlist whose OUTPUTS entry
repeats a primary input has one stimulus event, yet the trace recorded for
that signal has length 2: it is appended once by the input loop and once
by the output loop of `simulate`. -/
theorem C6_counterexample :
    (parse_netlist docDupOut).toOption.map (fun nl => nl.stimuli.length) =
      some 1 ∧
    (runSim docDupOut).map (fun w => (w "A").length) = some 2 := by
  decide

/-- **C7, counterexample.** A GATES line whose argument token `1A` starts
with a digit (hence is not an identifier) does *not* fail the parse: the
document parses successfully and records `1A` verbatim as an argument. -/
theorem C7_counterexample :
    (parse_netlist docDigitArg).toOption =
      some ⟨["A", "B"], ["C"], [⟨"C", GType.AND, ["1A", "B"]⟩],
        [(0, ["0", "0"])]⟩ := by
  decide

/-- **C7, amended.** The gate-line grammar constrains only the output name
to be an identifier; an argument token starting with any decimal digit is
accepted by the matcher and recorded verbatim. -/
theorem C7_digit_args_accepted : ∀ n : Nat, n < 10 →
    gateLineMatch (digitArgLine n) =
      some ("C", GType.AND, [String.mk [Char.ofNat (48 + n), 'A'], "B"]) := by
  decide

/-- Witness for `C7_digit_args_accepted` at the digit 1. -/
theorem C7_digit_args_accepted_witness :
    1 < 10 ∧
    gateLineMatch (digitArgLine 1) =
      some ("C", GType.AND, [String.mk [Char.ofNat (48 + 1), 'A'], "B"]) :=
  ⟨by decide, C7_digit_args_accepted 1 (by decide)⟩

/-- **C9.** The stimulus loop of the parser starts from the sentinel
`last_time = -1`, so a first stimulus event whose time is negative always
fails the parse with the strictly-increasing-times error. -/
theorem C9_negative_first_time (n : Nat) (l : String) (rest : List String)
    (p0 : String) (vals : List String) (t : Int)
    (hsplit : pySplitWS l = p0 :: vals) (hlen : vals.length = n)
    (ht : pyInt? p0 = some t) (hneg : t < 0) :
    parseStimLoop n (-1) [] (l :: rest) =
      Except.error "Stimulus times must be strictly increasing" := by
  have hle : t ≤ -1 := by omega
  simp only [parseStimLoop, hsplit, List.length_cons, hlen, ht]
  simp [hle]

/-- Witness for `C9_negative_first_time` on the line `-5 0`. -/
theorem C9_negative_first_time_witness :
    pySplitWS "-5 0" = "-5" :: ["0"] ∧ (["0"] : List String).length = 1 ∧
    pyInt? "-5" = some (-5) ∧ (-5 : Int) < 0 ∧
    parseStimLoop 1 (-1) [] ["-5 0"] =
      Except.error "Stimulus times must be strictly increasing" :=
  ⟨by decide, by decide, by decide, by decide,
    C9_negative_first_time 1 "-5 0" [] "-5" ["0"] (-5) (by decide) (by decide)
      (by decide) (by decide)⟩

theorem topo_sort_eq (gates : List Gate) :
    topo_sort gates =
      if (topoLoopResult gates).length = gates.length then
        Except.ok (topoLoopResult gates)
      else Except.error "Cyclic or unresolved gate dependencies detected" :=
  rfl

/-- Instantiating `kahn_invariant` at the loop's initial state. -/
theorem kahn_result (gates : List Gate) (hnd : (gateNames gates).Nodup) :
    (topoLoopResult gates).Nodup ∧
    (∀ x ∈ topoLoopResult gates, x ∈ gateNames gates) ∧
    (∀ g ∈ gates, g.name ∈ topoLoopResult gates → ∀ d ∈ depList gates g,
      Precedes (topoLoopResult gates) d g.name) ∧
    (∀ g ∈ gates, g.name ∉ topoLoopResult gates →
      ∃ d ∈ depList gates g, d ∉ topoLoopResult gates) := by
  have hmemready : ∀ y,
      (y ∈ ((initDeps gates).filter (fun p => p.2.isEmpty)).map (fun p => p.1)) ↔
        ∃ g ∈ gates, g.name = y ∧ depList gates g = [] := by
    intro y
    rw [← curDeps_nil gates, mem_keys_filter]
    constructor
    · rintro ⟨g, hg, rfl, hq⟩
      refine ⟨g, hg, rfl, ?_⟩
      rw [← curFilter_nil gates g]
      exact List.isEmpty_iff.mp hq
    · rintro ⟨g, hg, rfl, hq⟩
      refine ⟨g, hg, rfl, List.isEmpty_iff.mpr ?_⟩
      rw [curFilter_nil]
      exact hq
  have hinv := kahn_invariant gates hnd
    ((((initDeps gates).filter (fun p => p.2.isEmpty)).map (fun p => p.1)).length
      + depsWeight (initDeps gates))
    (((initDeps gates).filter (fun p => p.2.isEmpty)).map (fun p => p.1)) []
    (by rw [curDeps_nil gates])
    List.nodup_nil
    (fun x hx => absurd hx (List.not_mem_nil x))
    (by rw [← curDeps_nil gates]; exact keys_filter_nodup gates hnd _ [])
    (fun x hx => by
      obtain ⟨g, hg, rfl, -⟩ := (hmemready x).mp hx
      exact ⟨List.mem_map_of_mem _ hg, List.not_mem_nil _⟩)
    (fun g hg hm => by
      obtain ⟨g', hg', hname, hdl⟩ := (hmemready g.name).mp hm
      have hgg : g' = g := List.inj_on_of_nodup_map hnd hg' hg hname
      rw [curFilter_nil, ← hgg]
      exact hdl)
    (fun g _ h => absurd h (List.not_mem_nil _))
    (fun g hg hf => Or.inr ((hmemready g.name).mpr
      ⟨g, hg, rfl, by rw [curFilter_nil] at hf; exact hf⟩))
    (fun g _ h => absurd h (List.not_mem_nil _))
  rw [curDeps_nil gates] at hinv
  exact hinv

/-- A successful `topo_sort` returns a complete, valid topological order:
a permutation of the gate names in which every dependency precedes its
dependent.  (No acyclicity assumption is needed: success itself certifies
the order.) -/
theorem topo_sort_ok_valid (gates : List Gate)
    (hnd : (gateNames gates).Nodup) {order : List String}
    (hok : topo_sort gates = Except.ok order) :
    ValidTopoOrder gates order ∧ order.Perm (gateNames gates) := by
  obtain ⟨hndL, hsub, htopo, -⟩ := kahn_result gates hnd
  rw [topo_sort_eq] at hok
  by_cases hlen : (topoLoopResult gates).length = gates.length
  · rw [if_pos hlen] at hok
    have hLo : topoLoopResult gates = order := Except.ok.inj hok
    subst hLo
    have hperm : (topoLoopResult gates).Perm (gateNames gates) := by
      refine (hndL.subperm hsub).perm_of_length_le ?_
      rw [hlen, gateNames, List.length_map]
    have hcomp : ∀ g ∈ gates, g.name ∈ topoLoopResult gates := fun g hg =>
      hperm.mem_iff.mpr (List.mem_map_of_mem _ hg)
    exact ⟨⟨hndL, hsub, hcomp, fun g hg => htopo g hg (hcomp g hg)⟩, hperm⟩
  · rw [if_neg hlen] at hok
    cases hok

/-- The finite pigeonhole: if every name of a non-empty list has a
dependency successor inside the list, the dependency graph has a cycle. -/
theorem cycle_of_succ (gates : List Gate) (R : List String) (hne : R ≠ [])
    (hsucc : ∀ x ∈ R, ∃ y, y ∈ R ∧ DepEdge gates x y) :
    ∃ s, Relation.TransGen (DepEdge gates) s s := by
  classical
  have hT : ∀ p : {x : String // x ∈ R}, ∃ q : {x : String // x ∈ R},
      DepEdge gates p.1 q.1 := by
    rintro ⟨x, hx⟩
    obtain ⟨y, hy, he⟩ := hsucc x hx
    exact ⟨⟨y, hy⟩, he⟩
  choose f hf using hT
  obtain ⟨x0, hx0⟩ : ∃ x, x ∈ R := by
    cases R with
    | nil => exact absurd rfl hne
    | cons a _ => exact ⟨a, by simp⟩
  have hseq : ∀ n : Nat, DepEdge gates (f^[n] ⟨x0, hx0⟩).1 (f^[n + 1] ⟨x0, hx0⟩).1 := by
    intro n
    rw [Function.iterate_succ_apply' f n _]
    exact hf _
  have hchain : ∀ m k : Nat, m < k →
      Relation.TransGen (DepEdge gates) (f^[m] ⟨x0, hx0⟩).1 (f^[k] ⟨x0, hx0⟩).1 := by
    intro m k hmk
    induction k with
    | zero => omega
    | succ k ihk =>
      rcases Nat.lt_succ_iff_lt_or_eq.mp hmk with h | h
      · exact Relation.TransGen.tail (ihk h) (hseq k)
      · subst h
        exact Relation.TransGen.single (hseq m)
  obtain ⟨i, j, hij, hgij⟩ := Fintype.exists_ne_map_eq_of_card_lt
    (fun i : Fin (R.length + 1) =>
      (⟨R.indexOf (f^[i.1] ⟨x0, hx0⟩).1,
        List.indexOf_lt_length.mpr (f^[i.1] ⟨x0, hx0⟩).2⟩ : Fin R.length))
    (by simp)
  have hval : (f^[i.1] ⟨x0, hx0⟩).1 = (f^[j.1] ⟨x0, hx0⟩).1 :=
    (List.indexOf_inj (f^[i.1] ⟨x0, hx0⟩).2 (f^[j.1] ⟨x0, hx0⟩).2).mp
      (congrArg Fin.val hgij)
  rcases Nat.lt_or_ge i.1 j.1 with h | h
  · refine ⟨(f^[j.1] ⟨x0, hx0⟩).1, ?_⟩
    have hc := hchain i.1 j.1 h
    rw [hval] at hc
    exact hc
  · have hj : j.1 < i.1 :=
      lt_of_le_of_ne h (fun he => hij (Fin.ext he.symm))
    refine ⟨(f^[i.1] ⟨x0, hx0⟩).1, ?_⟩
    have hc := hchain j.1 i.1 hj
    rw [← hval] at hc
    exact hc

/-- For gate lists with an acyclic dependency graph, the Kahn loop emits
every gate, so `topo_sort` succeeds. -/
theorem topo_sort_ok_of_acyclic (gates : List Gate)
    (hnd : (gateNames gates).Nodup) (hacyc : AcyclicGates gates) :
    ∃ order, topo_sort gates = Except.ok order := by
  obtain ⟨hndL, hsub, -, hfront⟩ := kahn_result gates hnd
  have hcomplete : ∀ x ∈ gateNames gates, x ∈ topoLoopResult gates := by
    by_contra hcon
    push_neg at hcon
    obtain ⟨x, hxN, hxL⟩ := hcon
    set R := (gateNames gates).filter
      (fun y => !((topoLoopResult gates).contains y)) with hR
    have hmemR : ∀ y, y ∈ R ↔ y ∈ gateNames gates ∧ y ∉ topoLoopResult gates := by
      intro y
      rw [hR, List.mem_filter]
      exact and_congr_right (fun _ => not_contains_iff _ _)
    have hne : R ≠ [] := by
      intro h0
      have := (hmemR x).mpr ⟨hxN, hxL⟩
      rw [h0] at this
      cases this
    have hsucc : ∀ y ∈ R, ∃ z, z ∈ R ∧ DepEdge gates y z := by
      intro y hy
      obtain ⟨hyN, hyL⟩ := (hmemR y).mp hy
      obtain ⟨g, hg, hname⟩ := List.mem_map.mp hyN
      obtain ⟨d, hd, hdL⟩ := hfront g hg (by rw [hname]; exact hyL)
      have hdN : d ∈ gateNames gates := ((mem_depList gates g d).mp hd).2
      exact ⟨d, (hmemR d).mpr ⟨hdN, hdL⟩, ⟨g, hg, hname, hd⟩⟩
    obtain ⟨s, hs⟩ := cycle_of_succ gates R hne hsucc
    exact hacyc s hs
  have hlen : (topoLoopResult gates).length = gates.length := by
    have h1 : (topoLoopResult gates).length ≤ (gateNames gates).length :=
      (hndL.subperm hsub).length_le
    have h2 : (gateNames gates).length ≤ (topoLoopResult gates).length :=
      (hnd.subperm hcomplete).length_le
    have h3 : (gateNames gates).length = gates.length := List.length_map _ _
    omega
  exact ⟨topoLoopResult gates, by rw [topo_sort_eq, if_pos hlen]⟩

/-- A gate list with no dependency edges at all is acyclic. -/
theorem acyclic_of_no_edges (gates : List Gate)
    (h : ∀ a b, ¬ DepEdge gates a b) : AcyclicGates gates := by
  intro s hs
  cases hs with
  | single h' => exact h _ _ h'
  | tail _ h' => exact h _ _ h'

/-- **C2.** For every gate list with distinct names whose gate-to-gate
dependency graph is acyclic, `topo_sort` succeeds and returns an ordering
that contains every gate exactly once (a permutation of the gate names)
and is a valid topological order: each gate appears strictly after every
gate whose output name is among its arguments. -/
theorem C2_topo_sort_correct (gates : List Gate)
    (hnd : (gateNames gates).Nodup) (hacyc : AcyclicGates gates) :
    ∃ order, topo_sort gates = Except.ok order ∧
      order.Perm (gateNames gates) ∧
      ∀ g ∈ gates, ∀ g' ∈ gates, g'.name ∈ g.inputs →
        Precedes order g'.name g.name := by
  obtain ⟨order, hok⟩ := topo_sort_ok_of_acyclic gates hnd hacyc
  obtain ⟨⟨-, -, -, htopo⟩, hperm⟩ := topo_sort_ok_valid gates hnd hok
  refine ⟨order, hok, hperm, fun g hg g' hg' hin => ?_⟩
  exact htopo g hg g'.name
    ((mem_depList gates g g'.name).mpr ⟨hin, List.mem_map_of_mem _ hg'⟩)

/-- Witness for `C2_topo_sort_correct` on the one-gate netlist
`C = AND(A, B)`. -/
theorem C2_topo_sort_correct_witness :
    (gateNames [⟨"C", GType.AND, ["A", "B"]⟩]).Nodup ∧
    AcyclicGates [⟨"C", GType.AND, ["A", "B"]⟩] ∧
    ∃ order, topo_sort [⟨"C", GType.AND, ["A", "B"]⟩] = Except.ok order ∧
      order.Perm (gateNames [⟨"C", GType.AND, ["A", "B"]⟩]) ∧
      ∀ g ∈ [(⟨"C", GType.AND, ["A", "B"]⟩ : Gate)],
        ∀ g' ∈ [(⟨"C", GType.AND, ["A", "B"]⟩ : Gate)],
          g'.name ∈ g.inputs → Precedes order g'.name g.name := by
  have hnd : (gateNames [⟨"C", GType.AND, ["A", "B"]⟩]).Nodup := by decide
  have hacyc : AcyclicGates [⟨"C", GType.AND, ["A", "B"]⟩] := by
    apply acyclic_of_no_edges
    intro a b hedge
    obtain ⟨g, hg, -, hd⟩ := hedge
    rw [List.mem_singleton] at hg
    subst hg
    have : depList [⟨"C", GType.AND, ["A", "B"]⟩] ⟨"C", GType.AND, ["A", "B"]⟩
        = [] := by decide
    rw [this] at hd
    cases hd
  exact ⟨hnd, hacyc, C2_topo_sort_correct _ hnd hacyc⟩

/-- **C4.** For every gate list with distinct names whose dependency graph
contains a cycle, `topo_sort` fails with the cyclic-dependency error, and
`simulate` on any netlist built from those gates fails with the
cyclic-dependency error before producing any trace. -/
theorem C4_cycle_rejected (gates : List Gate)
    (hnd : (gateNames gates).Nodup)
    (hcyc : ∃ s, Relation.TransGen (DepEdge gates) s s) :
    topo_sort gates =
      Except.error "Cyclic or unresolved gate dependencies detected" ∧
    ∀ inputs outputs stimuli,
      simulate ⟨inputs, outputs, gates, stimuli⟩ =
        Except.error SimErr.cyclicDep := by
  have herr : ∀ order, topo_sort gates ≠ Except.ok order := by
    intro order hok
    obtain ⟨⟨-, -, -, htopo⟩, -⟩ := topo_sort_ok_valid gates hnd hok
    obtain ⟨s, hs⟩ := hcyc
    have hstep : ∀ a b, DepEdge gates a b →
        order.indexOf b < order.indexOf a := by
      rintro a b ⟨g, hg, rfl, hbd⟩
      exact (htopo g hg b hbd).2.2
    have htrans : ∀ a b, Relation.TransGen (DepEdge gates) a b →
        order.indexOf b < order.indexOf a := by
      intro a b htg
      induction htg with
      | single h => exact hstep _ _ h
      | tail _ h ihs => exact lt_trans (hstep _ _ h) ihs
    exact absurd (htrans s s hs) (lt_irrefl _)
  have htps : topo_sort gates =
      Except.error "Cyclic or unresolved gate dependencies detected" := by
    rw [topo_sort_eq]
    by_cases hlen : (topoLoopResult gates).length = gates.length
    · exact absurd (by rw [topo_sort_eq, if_pos hlen]) (herr (topoLoopResult gates))
    · rw [if_neg hlen]
  refine ⟨htps, fun inputs outputs stimuli => ?_⟩
  show (match topo_sort gates with
    | .error _ => Except.error SimErr.cyclicDep
    | .ok order => runEvents inputs outputs gates order stimuli
        (fun _ => none) (fun _ => "")) = Except.error SimErr.cyclicDep
  rw [htps]

/-- Witness for `C4_cycle_rejected` on the cyclic pair
`A = AND(B, x)`, `B = AND(A, y)`. -/
theorem C4_cycle_rejected_witness :
    (gateNames gatesCyc).Nodup ∧
    (∃ s, Relation.TransGen (DepEdge gatesCyc) s s) ∧
    (topo_sort gatesCyc =
        Except.error "Cyclic or unresolved gate dependencies detected" ∧
      ∀ inputs outputs stimuli,
        simulate ⟨inputs, outputs, gatesCyc, stimuli⟩ =
          Except.error SimErr.cyclicDep) := by
  have hnd : (gateNames gatesCyc).Nodup := by decide
  have he1 : DepEdge gatesCyc "A" "B" := by
    refine ⟨⟨"A", GType.AND, ["B", "x"]⟩, by decide, rfl, ?_⟩
    decide
  have he2 : DepEdge gatesCyc "B" "A" := by
    refine ⟨⟨"B", GType.AND, ["A", "y"]⟩, by decide, rfl, ?_⟩
    decide
  have hcyc : ∃ s, Relation.TransGen (DepEdge gatesCyc) s s :=
    ⟨"A", Relation.TransGen.tail (Relation.TransGen.single he1) he2⟩
  exact ⟨hnd, hcyc, C4_cycle_rejected gatesCyc hnd hcyc⟩

/-! ## Signal-map and gate-evaluation lemmas -/

theorem find_name (gates : List Gate) (hnd : (gateNames gates).Nodup) :
    ∀ g ∈ gates, gates.find? (fun g' => g'.name == g.name) = some g := by
  induction gates with
  | nil => intro g hg; cases hg
  | cons h tl ih =>
    intro g hg
    by_cases hb : (h.name == g.name) = true
    · have hname : h.name = g.name := eq_of_beq hb
      have hhg : h = g := by
        rcases List.mem_cons.mp hg with rfl | hgtl
        · rfl
        · exact List.inj_on_of_nodup_map hnd (by simp) (by simp [hgtl]) hname
      rw [@List.find?_cons_of_pos _ (fun g' => g'.name == g.name) h tl hb, hhg]
    · have hneq : h.name ≠ g.name := fun hh => hb (by rw [hh]; simp)
      have hgtl : g ∈ tl := by
        rcases List.mem_cons.mp hg with rfl | h'
        · exact absurd rfl hneq
        · exact h'
      rw [@List.find?_cons_of_neg _ (fun g' => g'.name == g.name) h tl hb]
      have hndtl : (gateNames tl).Nodup := by
        simp only [gateNames, List.map_cons] at hnd
        exact (List.nodup_cons.mp hnd).2
      exact ih hndtl g hgtl

theorem lookupArgs_ok_of_isSome (sig : String → Option String) :
    ∀ l : List String, (∀ a ∈ l, (sig a).isSome) →
    ∃ vals, lookupArgs sig l = Except.ok vals ∧ vals.length = l.length := by
  intro l
  induction l with
  | nil => intro _; exact ⟨[], rfl, rfl⟩
  | cons a as ih =>
    intro h
    obtain ⟨v, hv⟩ := Option.isSome_iff_exists.mp (h a (by simp))
    obtain ⟨vs, hvs, hlen⟩ := ih (fun b hb => h b (by simp [hb]))
    exact ⟨v :: vs, by simp only [lookupArgs, hv, hvs], by simp [hlen]⟩

theorem lookupArgs_congr (sig1 sig2 : String → Option String) :
    ∀ l : List String, (∀ a ∈ l, sig1 a = sig2 a) →
    lookupArgs sig1 l = lookupArgs sig2 l := by
  intro l
  induction l with
  | nil => intro _; rfl
  | cons a as ih =>
    intro h
    have ha := h a (by simp)
    have has := ih (fun b hb => h b (by simp [hb]))
    simp only [lookupArgs, ha, has]

theorem lookupArgs_error_keyErr (sig : String → Option String) :
    ∀ (l : List String) (e : SimErr), lookupArgs sig l = Except.error e →
    ∃ a, e = SimErr.keyError a ∧ a ∈ l ∧ sig a = none := by
  intro l
  induction l with
  | nil => intro e h; cases h
  | cons a as ih =>
    intro e h
    cases hv : sig a with
    | none =>
      simp only [lookupArgs, hv] at h
      exact ⟨a, (Except.error.inj h).symm, by simp, hv⟩
    | some v =>
      cases hvs : lookupArgs sig as with
      | error e' =>
        simp only [lookupArgs, hv, hvs] at h
        obtain ⟨b, hb, hbm, hbn⟩ := ih e' hvs
        exact ⟨b, (Except.error.inj h).symm ▸ hb, by simp [hbm], hbn⟩
      | ok vs =>
        simp only [lookupArgs, hv, hvs] at h
        cases h

theorem lookupArgs_ok_isSome (sig : String → Option String) :
    ∀ (l : List String) (vals : List String),
    lookupArgs sig l = Except.ok vals → ∀ a ∈ l, sig a ≠ none := by
  intro l
  induction l with
  | nil => intro vals _ a ha; cases ha
  | cons a as ih =>
    intro vals h b hb
    cases hv : sig a with
    | none =>
      simp only [lookupArgs, hv] at h
      cases h
    | some v =>
      cases hvs : lookupArgs sig as with
      | error e =>
        simp only [lookupArgs, hv, hvs] at h
        cases h
      | ok vs =>
        rcases List.mem_cons.mp hb with rfl | hb'
        · rw [hv]; exact fun hc => Option.noConfusion hc
        · exact ih vs hvs b hb'

theorem eval_gate_total (g : Gate) (h : arityOk g) (vals : List String)
    (hlen : vals.length = g.inputs.length) :
    ∃ v, eval_gate g.type vals = some v := by
  obtain ⟨h1, h2⟩ := h
  cases hgt : g.type with
  | NOT =>
    have hl : vals.length = 1 := by rw [hlen, h1 hgt]
    match vals, hl with
    | [a], _ => exact ⟨_, rfl⟩
  | AND =>
    have hl : vals.length = 2 := by rw [hlen, h2 (by rw [hgt]; intro hc; cases hc)]
    match vals, hl with
    | [a, b], _ => exact ⟨_, rfl⟩
  | OR =>
    have hl : vals.length = 2 := by rw [hlen, h2 (by rw [hgt]; intro hc; cases hc)]
    match vals, hl with
    | [a, b], _ => exact ⟨_, rfl⟩
  | XOR =>
    have hl : vals.length = 2 := by rw [hlen, h2 (by rw [hgt]; intro hc; cases hc)]
    match vals, hl with
    | [a, b], _ => exact ⟨_, rfl⟩

theorem eval_gate_binary (t : GType) (vals : List String) (v : String)
    (h : eval_gate t vals = some v) : v = "0" ∨ v = "1" := by
  cases t with
  | NOT =>
    match vals, h with
    | a :: _, h =>
      simp only [eval_gate] at h
      split at h <;> simp_all
  | AND =>
    match vals, h with
    | a :: b :: _, h =>
      simp only [eval_gate] at h
      split at h <;> simp_all
  | OR =>
    match vals, h with
    | a :: b :: _, h =>
      simp only [eval_gate] at h
      split at h <;> simp_all
  | XOR =>
    match vals, h with
    | a :: b :: _, h =>
      simp only [eval_gate] at h
      split at h <;> simp_all

theorem updateSig_same (sig : String → Option String) (n v : String) :
    updateSig sig n v n = some v := by simp [updateSig]

theorem updateSig_other (sig : String → Option String) (n v s : String)
    (h : s ≠ n) : updateSig sig n v s = sig s := by simp [updateSig, h]

theorem setInputs_not_mem (sig : String → Option String) :
    ∀ (inputs vals : List String) (a : String), a ∉ inputs →
    setInputs sig inputs vals a = sig a := by
  intro inputs
  induction inputs generalizing sig with
  | nil => intro vals a _; cases vals <;> rfl
  | cons i is ih =>
    intro vals a ha
    cases vals with
    | nil => rfl
    | cons v vs =>
      have hai : a ≠ i := fun h => ha (by simp [h])
      have has : a ∉ is := fun h => ha (by simp [h])
      rw [setInputs, ih (updateSig sig i v) vs a has, updateSig_other _ _ _ _ hai]

theorem setInputs_isSome_of_mem (sig : String → Option String) :
    ∀ (inputs vals : List String) (a : String),
    vals.length = inputs.length → a ∈ inputs →
    (setInputs sig inputs vals a).isSome := by
  intro inputs
  induction inputs generalizing sig with
  | nil => intro vals a _ ha; cases ha
  | cons i is ih =>
    intro vals a hlen ha
    cases vals with
    | nil => simp at hlen
    | cons v vs =>
      rw [setInputs]
      by_cases hais : a ∈ is
      · exact ih (updateSig sig i v) vs a (by simpa using hlen) hais
      · have hai : a = i := by
          rcases List.mem_cons.mp ha with h | h
          · exact h
          · exact absurd h hais
        rw [setInputs_not_mem _ _ _ _ hais, hai, updateSig_same]
        rfl

theorem setInputs_values (sig : String → Option String) :
    ∀ (inputs vals : List String) (a v : String),
    setInputs sig inputs vals a = some v → sig a = some v ∨ v ∈ vals := by
  intro inputs
  induction inputs generalizing sig with
  | nil => intro vals a v h; cases vals <;> exact Or.inl h
  | cons i is ih =>
    intro vals a v h
    cases vals with
    | nil => exact Or.inl h
    | cons v0 vs =>
      rw [setInputs] at h
      rcases ih (updateSig sig i v0) vs a v h with h' | h'
      · by_cases hai : a = i
        · subst hai
          rw [updateSig_same] at h'
          exact Or.inr (by simp [Option.some.inj h'])
        · rw [updateSig_other _ _ _ _ hai] at h'
          exact Or.inl h'
      · exact Or.inr (by simp [h'])

/-! ## Positions in a topological order -/

theorem mem_prefix_of_indexOf_lt {P suf : List String} {a : String}
    (ha : a ∈ P ++ suf) (hlt : (P ++ suf).indexOf a < P.length) : a ∈ P := by
  by_contra hc
  rcases List.mem_append.mp ha with h | h
  · exact hc h
  · rw [List.indexOf_append_of_not_mem hc] at hlt
    omega

theorem mem_prefix_of_precedes_mem {ord P suf : List String} {a y : String}
    (hord : ord = P ++ suf) (hyP : y ∈ P) (hprec : Precedes ord a y) :
    a ∈ P := by
  subst hord
  obtain ⟨haO, _hyO, hlt⟩ := hprec
  refine mem_prefix_of_indexOf_lt haO ?_
  have h1 : (P ++ suf).indexOf y = P.indexOf y := List.indexOf_append_of_mem hyP
  have h2 : P.indexOf y < P.length := List.indexOf_lt_length.mpr hyP
  omega

theorem mem_prefix_of_precedes_head {ord P suf : List String} {a y : String}
    (hord : ord = P ++ y :: suf) (hyP : y ∉ P) (hprec : Precedes ord a y) :
    a ∈ P := by
  subst hord
  obtain ⟨haO, _hyO, hlt⟩ := hprec
  refine mem_prefix_of_indexOf_lt haO ?_
  have h1 : (P ++ y :: suf).indexOf y = P.length := by
    rw [List.indexOf_append_of_not_mem hyP, List.indexOf_cons_self]
    omega
  omega

/-! ## Soundness of the gate-evaluation loop -/

theorem evalGates_sound_aux (gates : List Gate)
    (hnd : (gateNames gates).Nodup) (ord : List String)
    (hvt : ValidTopoOrder gates ord) (harity : ∀ g ∈ gates, arityOk g)
    (sig0 : String → Option String)
    (hargs : ∀ g ∈ gates, ∀ a ∈ g.inputs, a ∉ gateNames gates →
      (sig0 a).isSome) :
    ∀ (suf P : List String) (sig : String → Option String),
    ord = P ++ suf →
    (∀ s, s ∉ P → sig s = sig0 s) →
    (∀ g ∈ gates, g.name ∈ P → sig g.name = evalOf sig g ∧
      (sig g.name).isSome) →
    ∃ F, evalGates gates suf sig = Except.ok F ∧
      (∀ s, s ∉ ord → F s = sig0 s) ∧
      (∀ g ∈ gates, g.name ∈ ord → F g.name = evalOf F g ∧
        (F g.name).isSome) := by
  obtain ⟨hndO, hsubO, hcomp, htopo⟩ := hvt
  intro suf
  induction suf with
  | nil =>
    intro P sig hord hframe hB
    rw [List.append_nil] at hord
    subst hord
    exact ⟨sig, rfl, fun s hs => hframe s hs, fun g hg hm => hB g hg hm⟩
  | cons gname rest ih =>
    intro P sig hord hframe hB
    have hgname_ord : gname ∈ ord := by rw [hord]; simp
    have hgnameN : gname ∈ gateNames gates := hsubO _ hgname_ord
    obtain ⟨g0, hg0, hg0name⟩ := List.mem_map.mp hgnameN
    have hfind : gates.find? (fun g => g.name == gname) = some g0 := by
      rw [← hg0name]
      exact find_name gates hnd g0 hg0
    have hgnameP : gname ∉ P := by
      rw [hord] at hndO
      obtain ⟨-, -, hdisj⟩ := List.nodup_append.mp hndO
      exact fun h => hdisj h (by simp)
    have hPN : ∀ x ∈ P, x ∈ gateNames gates := fun x hx =>
      hsubO x (by rw [hord]; exact List.mem_append_left _ hx)
    -- every argument of g0 is already resolvable
    have hargres : ∀ a ∈ g0.inputs, (sig a).isSome := by
      intro a ha
      by_cases haN : a ∈ gateNames gates
      · have had : a ∈ depList gates g0 := (mem_depList _ _ _).mpr ⟨ha, haN⟩
        have hprec := htopo g0 hg0 a had
        rw [hg0name] at hprec
        have haP : a ∈ P := mem_prefix_of_precedes_head hord hgnameP hprec
        obtain ⟨g', hg', hg'name⟩ := List.mem_map.mp haN
        have := (hB g' hg' (by rw [hg'name]; exact haP)).2
        rw [hg'name] at this
        exact this
      · rw [hframe a (fun hh => haN (hPN a hh))]
        exact hargs g0 hg0 a ha haN
    obtain ⟨vals, hvals, hvlen⟩ := lookupArgs_ok_of_isSome sig g0.inputs hargres
    obtain ⟨v, hv⟩ := eval_gate_total g0 (harity g0 hg0) vals hvlen
    have hstep : evalGates gates (gname :: rest) sig
        = evalGates gates rest (updateSig sig gname v) := by
      simp only [evalGates, hfind, hvals, hv]
    -- no argument of a settled gate (or of g0) is gname
    have hargNe : ∀ g'' ∈ gates, (g''.name ∈ P ∨ g''.name = gname) →
        ∀ a ∈ g''.inputs, a ≠ gname := by
      intro g'' hg'' hcase a ha hagname
      subst hagname
      have had : a ∈ depList gates g'' := (mem_depList _ _ _).mpr ⟨ha, hgnameN⟩
      have hprec := htopo g'' hg'' a had
      rcases hcase with hP | hEq
      · exact hgnameP (mem_prefix_of_precedes_mem hord hP hprec)
      · rw [hEq] at hprec
        exact absurd hprec.2.2 (lt_irrefl _)
    have hord' : ord = (P ++ [gname]) ++ rest := by rw [hord]; simp
    have hframe' : ∀ s, s ∉ P ++ [gname] → updateSig sig gname v s = sig0 s := by
      intro s hs
      have hsP : s ∉ P := fun h => hs (List.mem_append_left _ h)
      have hsg : s ≠ gname := fun h => hs (List.mem_append_right _ (by simp [h]))
      rw [updateSig_other _ _ _ _ hsg]
      exact hframe s hsP
    have hB' : ∀ g'' ∈ gates, g''.name ∈ P ++ [gname] →
        updateSig sig gname v g''.name = evalOf (updateSig sig gname v) g'' ∧
        (updateSig sig gname v g''.name).isSome := by
      intro g'' hg'' hmem
      rcases List.mem_append.mp hmem with hP | hG
      · have hne : g''.name ≠ gname := fun h => hgnameP (h ▸ hP)
        obtain ⟨heq, hsome⟩ := hB g'' hg'' hP
        have hsig' : updateSig sig gname v g''.name = sig g''.name :=
          updateSig_other _ _ _ _ hne
        have hlc : lookupArgs (updateSig sig gname v) g''.inputs
            = lookupArgs sig g''.inputs :=
          lookupArgs_congr _ _ g''.inputs (fun a ha =>
            updateSig_other _ _ _ _ (hargNe g'' hg'' (Or.inl hP) a ha))
        rw [hsig', evalOf, hlc, ← evalOf]
        exact ⟨heq, hsome⟩
      · have hname : g''.name = gname := List.mem_singleton.mp hG
        have hg''g0 : g'' = g0 :=
          List.inj_on_of_nodup_map hnd hg'' hg0 (hname.trans hg0name.symm)
        subst hg''g0
        have hlc : lookupArgs (updateSig sig gname v) g''.inputs
            = lookupArgs sig g''.inputs :=
          lookupArgs_congr _ _ g''.inputs (fun a ha =>
            updateSig_other _ _ _ _ (hargNe g'' hg'' (Or.inr hname) a ha))
        rw [hname, updateSig_same, evalOf, hlc, hvals]
        exact ⟨by simp [hv], rfl⟩
    obtain ⟨F, hFeval, hFframe, hFeq⟩ :=
      ih (P ++ [gname]) (updateSig sig gname v) hord' hframe' hB'
    exact ⟨F, by rw [hstep]; exact hFeval, hFframe, hFeq⟩

/-- Evaluating all gates in a complete valid topological order from a
signal map that resolves every non-gate argument succeeds; the result
agrees with the initial map off the gate names, and every gate's signal
equals its gate function applied to the resolved argument values. -/
theorem evalGates_sound (gates : List Gate)
    (hnd : (gateNames gates).Nodup) (ord : List String)
    (hvt : ValidTopoOrder gates ord) (harity : ∀ g ∈ gates, arityOk g)
    (sig0 : String → Option String)
    (hargs : ∀ g ∈ gates, ∀ a ∈ g.inputs, a ∉ gateNames gates →
      (sig0 a).isSome) :
    ∃ F, evalGates gates ord sig0 = Except.ok F ∧
      (∀ s, s ∉ ord → F s = sig0 s) ∧
      (∀ g ∈ gates, F g.name = evalOf F g ∧ (F g.name).isSome) := by
  obtain ⟨F, h1, h2, h3⟩ := evalGates_sound_aux gates hnd ord hvt harity sig0
    hargs ord [] sig0 rfl (fun _ _ => rfl)
    (fun g _ h => absurd h (List.not_mem_nil _))
  exact ⟨F, h1, h2, fun g hg => h3 g hg (hvt.2.2.1 g hg)⟩

/-- The fixpoint equations determine the signal map: two maps that agree
off the gate names and both satisfy every gate's equation are equal. -/
theorem fixpoint_unique (gates : List Gate) (ord : List String)
    (hvt : ValidTopoOrder gates ord) (sig0 F1 F2 : String → Option String)
    (h1f : ∀ s, s ∉ gateNames gates → F1 s = sig0 s)
    (h1e : ∀ g ∈ gates, F1 g.name = evalOf F1 g)
    (h2f : ∀ s, s ∉ gateNames gates → F2 s = sig0 s)
    (h2e : ∀ g ∈ gates, F2 g.name = evalOf F2 g) :
    ∀ s, F1 s = F2 s := by
  obtain ⟨-, -, -, htopo⟩ := hvt
  have main : ∀ n, ∀ g ∈ gates, ord.indexOf g.name = n →
      F1 g.name = F2 g.name := by
    intro n
    induction n using Nat.strong_induction_on with
    | _ n ihn =>
      intro g hg hidx
      rw [h1e g hg, h2e g hg]
      have hcong : ∀ a ∈ g.inputs, F1 a = F2 a := by
        intro a ha
        by_cases haN : a ∈ gateNames gates
        · obtain ⟨g', hg', hname⟩ := List.mem_map.mp haN
          have had : a ∈ depList gates g := (mem_depList _ _ _).mpr ⟨ha, haN⟩
          have hprec := htopo g hg a had
          have hlt : ord.indexOf a < n := hidx ▸ hprec.2.2
          rw [← hname]
          exact ihn (ord.indexOf g'.name) (by rw [hname]; exact hlt) g' hg' rfl
        · rw [h1f a haN, h2f a haN]
      rw [evalOf, evalOf, lookupArgs_congr F1 F2 g.inputs hcong]
  intro s
  by_cases hsN : s ∈ gateNames gates
  · obtain ⟨g, hg, hname⟩ := List.mem_map.mp hsN
    rw [← hname]
    exact main (ord.indexOf g.name) g hg rfl
  · rw [h1f s hsN, h2f s hsN]

/-! ## Failure analysis of the gate-evaluation loop -/

theorem evalGates_ok_arg (gates : List Gate)
    (hnd : (gateNames gates).Nodup) :
    ∀ (ord : List String) (sig : String → Option String)
      (F : String → Option String),
    evalGates gates ord sig = Except.ok F →
    ∀ g0 ∈ gates, g0.name ∈ ord → ∀ a ∈ g0.inputs,
      sig a ≠ none ∨ a ∈ ord := by
  intro ord
  induction ord with
  | nil => intro sig F _ g0 _ hmem; cases hmem
  | cons gname rest ih =>
    intro sig F hF g0 hg0 hmem a ha
    cases hfind : gates.find? (fun g => g.name == gname) with
    | none =>
      simp only [evalGates, hfind] at hF
      cases hF
    | some g =>
      cases hargs : lookupArgs sig g.inputs with
      | error e =>
        simp only [evalGates, hfind, hargs] at hF
        cases hF
      | ok vals =>
        cases hev : eval_gate g.type vals with
        | none =>
          simp only [evalGates, hfind, hargs, hev] at hF
          cases hF
        | some v =>
          have hF' : evalGates gates rest (updateSig sig gname v)
              = Except.ok F := by
            simpa only [evalGates, hfind, hargs, hev] using hF
          rcases List.mem_cons.mp hmem with heq | hmem'
          · have hgmem : g ∈ gates := List.mem_of_find?_eq_some hfind
            have hbeq := List.find?_some hfind
            have hgname : g.name = gname := eq_of_beq hbeq
            have hgg0 : g = g0 :=
              List.inj_on_of_nodup_map hnd hgmem hg0 (hgname.trans heq.symm)
            subst hgg0
            exact Or.inl (lookupArgs_ok_isSome sig g.inputs vals hargs a ha)
          · rcases ih (updateSig sig gname v) F hF' g0 hg0 hmem' a ha
              with h | h
            · by_cases hag : a = gname
              · exact Or.inr (by simp [hag])
              · rw [updateSig_other _ _ _ _ hag] at h
                exact Or.inl h
            · exact Or.inr (by simp [h])

theorem evalGates_error_shape (gates : List Gate)
    (hnd : (gateNames gates).Nodup) :
    ∀ (ord : List String), (∀ x ∈ ord, x ∈ gateNames gates) →
    (∀ g ∈ gates, arityOk g) →
    ∀ (sig : String → Option String) (e : SimErr),
    evalGates gates ord sig = Except.error e →
    ∃ s, e = SimErr.keyError s := by
  intro ord
  induction ord with
  | nil =>
    intro _ _ sig e h
    cases h
  | cons gname rest ih =>
    intro hsub harity sig e hE
    have hgN : gname ∈ gateNames gates := hsub gname (by simp)
    obtain ⟨g0, hg0, hg0n⟩ := List.mem_map.mp hgN
    have hfind : gates.find? (fun g => g.name == gname) = some g0 := by
      rw [← hg0n]
      exact find_name gates hnd g0 hg0
    cases hargs : lookupArgs sig g0.inputs with
    | error e' =>
      obtain ⟨a, ha, -, -⟩ := lookupArgs_error_keyErr sig g0.inputs e' hargs
      simp only [evalGates, hfind, hargs] at hE
      exact ⟨a, (Except.error.inj hE).symm ▸ ha⟩
    | ok vals =>
      have hvlen : vals.length = g0.inputs.length := by
        obtain ⟨vals', hvals', hlen'⟩ := lookupArgs_ok_of_isSome sig g0.inputs
          (fun a ha => by
            have := lookupArgs_ok_isSome sig g0.inputs vals hargs a ha
            exact Option.isSome_iff_ne_none.mpr this)
        rw [hargs] at hvals'
        rw [Except.ok.inj hvals']
        exact hlen'
      obtain ⟨v, hv⟩ := eval_gate_total g0 (harity g0 hg0) vals hvlen
      have hE' : evalGates gates rest (updateSig sig gname v)
          = Except.error e := by
        simpa only [evalGates, hfind, hargs, hv] using hE
      exact ih (fun x hx => hsub x (by simp [hx])) harity _ e hE'

/-! ## Trace recording -/

theorem record_ok (sig : String → Option String) :
    ∀ (L : List String) (w : String → String),
    (∀ n ∈ L, ∃ v, sig n = some v ∧ v.length = 1) →
    ∃ w', record sig L w = Except.ok w' ∧
      ∀ s, (w' s).length = (w s).length + L.count s := by
  intro L
  induction L with
  | nil => intro w _; exact ⟨w, rfl, by simp⟩
  | cons n ns ihL =>
    intro w h
    obtain ⟨v, hv, hvlen⟩ := h n (by simp)
    obtain ⟨w', hw', hlen⟩ := ihL (fun s => if s = n then w s ++ v else w s)
      (fun m hm => h m (by simp [hm]))
    refine ⟨w', by simp only [record, hv]; exact hw', ?_⟩
    intro s
    rw [hlen s]
    by_cases hs : s = n
    · subst hs
      have hc : (s :: ns).count s = ns.count s + 1 := by
        simp [List.count_cons]
      rw [hc]
      simp [List.length_append, hvlen]
      omega
    · have hc : (n :: ns).count s = ns.count s := by
        simp [List.count_cons, Ne.symm hs]
      rw [hc, if_neg hs]

theorem record_fail_of_none (sig : String → Option String) :
    ∀ (L : List String) (w : String → String),
    (∃ s, s ∈ L ∧ sig s = none) →
    ∃ s', s' ∈ L ∧ sig s' = none ∧
      record sig L w = Except.error (SimErr.keyError s') := by
  intro L
  induction L with
  | nil =>
    rintro w ⟨s, hs, -⟩
    cases hs
  | cons n ns ih =>
    rintro w ⟨s, hs, hnone⟩
    cases hv : sig n with
    | none => exact ⟨n, by simp, hv, by simp only [record, hv]⟩
    | some v =>
      have hsns : s ∈ ns := by
        rcases List.mem_cons.mp hs with rfl | h
        · rw [hv] at hnone; cases hnone
        · exact h
      obtain ⟨s', hs', hn', herr⟩ := ih
        (fun s => if s = n then w s ++ v else w s) ⟨s, hsns, hnone⟩
      exact ⟨s', by simp [hs'], hn', by simp only [record, hv]; exact herr⟩

/-! ## The per-event simulation loop -/

theorem runEvents_ok_lengths (inputs outputs : List String)
    (gates : List Gate) (ord : List String)
    (hnd : (gateNames gates).Nodup) (hvt : ValidTopoOrder gates ord)
    (harity : ∀ g ∈ gates, arityOk g)
    (hcov : ∀ g ∈ gates, ∀ a ∈ g.inputs,
      a ∈ inputs ∨ a ∈ gateNames gates)
    (houts : ∀ o ∈ outputs, o ∈ inputs ∨ o ∈ gateNames gates) :
    ∀ (stimuli : List (Int × List String)) (sig : String → Option String)
      (w : String → String),
    (∀ e ∈ stimuli, e.2.length = inputs.length ∧
      ∀ v ∈ e.2, v = "0" ∨ v = "1") →
    (∀ s v, sig s = some v → v.length = 1) →
    ∃ w', runEvents inputs outputs gates ord stimuli sig w = Except.ok w' ∧
      ∀ s, (w' s).length =
        (w s).length + (inputs ++ outputs).count s * stimuli.length := by
  intro stimuli
  induction stimuli with
  | nil =>
    intro sig w _ _
    exact ⟨w, rfl, by simp⟩
  | cons e rest ih =>
    intro sig w hstim hsigbin
    obtain ⟨t0, vals⟩ := e
    obtain ⟨hvlen, hvbin⟩ := hstim (t0, vals) (by simp)
    -- the event's input binding
    have hsig1bin : ∀ s v,
        setInputs sig inputs vals s = some v → v.length = 1 := by
      intro s v h
      rcases setInputs_values sig inputs vals s v h with h' | h'
      · exact hsigbin s v h'
      · rcases hvbin v h' with rfl | rfl <;> rfl
    have hargs : ∀ g ∈ gates, ∀ a ∈ g.inputs, a ∉ gateNames gates →
        (setInputs sig inputs vals a).isSome := by
      intro g hg a ha haN
      rcases hcov g hg a ha with h | h
      · exact setInputs_isSome_of_mem sig inputs vals a hvlen h
      · exact absurd h haN
    obtain ⟨F, hF, hFframe, hFeq⟩ := evalGates_sound gates hnd ord hvt harity
      (setInputs sig inputs vals) hargs
    -- all signal values remain single characters
    have hFbin : ∀ s v, F s = some v → v.length = 1 := by
      intro s v hFs
      by_cases hsN : s ∈ gateNames gates
      · obtain ⟨g, hg, hname⟩ := List.mem_map.mp hsN
        rw [← hname, (hFeq g hg).1, evalOf] at hFs
        cases hla : lookupArgs F g.inputs with
        | error e' => rw [hla] at hFs; cases hFs
        | ok vals' =>
          rw [hla] at hFs
          rcases eval_gate_binary g.type vals' v hFs with rfl | rfl <;> rfl
      · have hso : s ∉ ord := fun h => hsN (hvt.2.1 s h)
        rw [hFframe s hso] at hFs
        exact hsig1bin s v hFs
    -- every tracked name has a single-character value
    have htracked : ∀ n ∈ inputs ++ outputs,
        ∃ v, F n = some v ∧ v.length = 1 := by
      intro n hn
      have hsome : (F n).isSome := by
        have hin : n ∈ inputs ∨ n ∈ gateNames gates := by
          rcases List.mem_append.mp hn with h | h
          · exact Or.inl h
          · exact houts n h
        rcases hin with h | h
        · by_cases hnN : n ∈ gateNames gates
          · obtain ⟨g, hg, hname⟩ := List.mem_map.mp hnN
            rw [← hname]
            exact (hFeq g hg).2
          · have hno : n ∉ ord := fun h' => hnN (hvt.2.1 n h')
            rw [hFframe n hno]
            exact setInputs_isSome_of_mem sig inputs vals n hvlen h
        · obtain ⟨g, hg, hname⟩ := List.mem_map.mp h
          rw [← hname]
          exact (hFeq g hg).2
      obtain ⟨v, hv⟩ := Option.isSome_iff_exists.mp hsome
      exact ⟨v, hv, hFbin n v hv⟩
    obtain ⟨w2, hw2, hw2len⟩ := record_ok F (inputs ++ outputs) w htracked
    obtain ⟨w', hw', hlen'⟩ := ih F w2
      (fun e' he' => hstim e' (by simp [he'])) hFbin
    refine ⟨w', ?_, ?_⟩
    · simp only [runEvents, hF, hw2]
      exact hw'
    · intro s
      rw [hlen' s, hw2len s, List.length_cons, Nat.mul_succ]
      omega

/-- The single gate `C = AND(A, B)` has no dependency edges, hence is
acyclic (used by several witnesses). -/
theorem acyclicGates_single_and :
    AcyclicGates [⟨"C", GType.AND, ["A", "B"]⟩] := by
  apply acyclic_of_no_edges
  intro a b hedge
  obtain ⟨g, hg, -, hd⟩ := hedge
  rw [List.mem_singleton] at hg
  subst hg
  have hdep : depList [(⟨"C", GType.AND, ["A", "B"]⟩ : Gate)]
      ⟨"C", GType.AND, ["A", "B"]⟩ = [] := by decide
  rw [hdep] at hd
  cases hd

/-- **C6, amended.** For every valid netlist (distinct gate names, acyclic,
parser arities, all gate arguments and all outputs defined) whose combined
`inputs ++ outputs` tracking list is duplicate-free, the simulation
succeeds and every tracked signal's trace has length exactly the number of
stimulus events; in particular, zero events give empty traces and no
error.  (The duplicate-freeness proviso is what the counterexample forces:
an output repeating an input is appended twice per event.) -/
theorem C6_trace_lengths (nl : Netlist)
    (hnd : (gateNames nl.gates).Nodup) (hacyc : AcyclicGates nl.gates)
    (harity : ∀ g ∈ nl.gates, arityOk g)
    (hcov : ∀ g ∈ nl.gates, ∀ a ∈ g.inputs,
      a ∈ nl.inputs ∨ a ∈ gateNames nl.gates)
    (houts : ∀ o ∈ nl.outputs, o ∈ nl.inputs ∨ o ∈ gateNames nl.gates)
    (hstim : ∀ e ∈ nl.stimuli, e.2.length = nl.inputs.length ∧
      ∀ v ∈ e.2, v = "0" ∨ v = "1")
    (htrack : (nl.inputs ++ nl.outputs).Nodup) :
    ∃ w, simulate nl = Except.ok w ∧
      ∀ s ∈ nl.inputs ++ nl.outputs, (w s).length = nl.stimuli.length := by
  obtain ⟨order, hok⟩ := topo_sort_ok_of_acyclic nl.gates hnd hacyc
  obtain ⟨hvt, -⟩ := topo_sort_ok_valid nl.gates hnd hok
  obtain ⟨w, hw, hlen⟩ := runEvents_ok_lengths nl.inputs nl.outputs nl.gates
    order hnd hvt harity hcov houts nl.stimuli (fun _ => none) (fun _ => "")
    hstim (fun s v h => by cases h)
  refine ⟨w, ?_, ?_⟩
  · simp only [simulate, hok]
    exact hw
  · intro s hs
    rw [hlen s, List.count_eq_one_of_mem htrack hs]
    simp

/-- Witness for `C6_trace_lengths` on the one-gate netlist with a single
stimulus event. -/
theorem C6_trace_lengths_witness :
    (let nl : Netlist := ⟨["A", "B"], ["C"], [⟨"C", GType.AND, ["A", "B"]⟩],
      [(0, ["0", "0"])]⟩
    (gateNames nl.gates).Nodup ∧ AcyclicGates nl.gates ∧
    (∀ g ∈ nl.gates, arityOk g) ∧
    (∀ g ∈ nl.gates, ∀ a ∈ g.inputs,
      a ∈ nl.inputs ∨ a ∈ gateNames nl.gates) ∧
    (∀ o ∈ nl.outputs, o ∈ nl.inputs ∨ o ∈ gateNames nl.gates) ∧
    (∀ e ∈ nl.stimuli, e.2.length = nl.inputs.length ∧
      ∀ v ∈ e.2, v = "0" ∨ v = "1") ∧
    (nl.inputs ++ nl.outputs).Nodup ∧
    ∃ w, simulate nl = Except.ok w ∧
      ∀ s ∈ nl.inputs ++ nl.outputs, (w s).length = nl.stimuli.length) :=
  ⟨by decide, acyclicGates_single_and, by decide, by decide, by decide,
    by decide, by decide,
    C6_trace_lengths _ (by decide) acyclicGates_single_and (by decide)
      (by decide) (by decide) (by decide) (by decide)⟩

/-- The per-event loop produces the same result under any two complete
valid topological orders: each event's final signal map is the unique
fixpoint of the gate equations over that event's bound inputs. -/
theorem runEvents_order_irrelevant (inputs outputs : List String)
    (gates : List Gate) (hnd : (gateNames gates).Nodup)
    (harity : ∀ g ∈ gates, arityOk g)
    (hcov : ∀ g ∈ gates, ∀ a ∈ g.inputs,
      a ∈ inputs ∨ a ∈ gateNames gates)
    (ord1 ord2 : List String)
    (h1 : ValidTopoOrder gates ord1) (h2 : ValidTopoOrder gates ord2) :
    ∀ (stimuli : List (Int × List String)) (sig : String → Option String)
      (w : String → String),
    (∀ e ∈ stimuli, e.2.length = inputs.length) →
    runEvents inputs outputs gates ord1 stimuli sig w =
      runEvents inputs outputs gates ord2 stimuli sig w := by
  intro stimuli
  induction stimuli with
  | nil => intro sig w _; rfl
  | cons e rest ih =>
    intro sig w hstim
    obtain ⟨t0, vals⟩ := e
    have hvlen : vals.length = inputs.length := hstim (t0, vals) (by simp)
    have hargs : ∀ g ∈ gates, ∀ a ∈ g.inputs, a ∉ gateNames gates →
        ((setInputs sig inputs vals) a).isSome := by
      intro g hg a ha haN
      rcases hcov g hg a ha with h | h
      · exact setInputs_isSome_of_mem sig inputs vals a hvlen h
      · exact absurd h haN
    obtain ⟨F1, hF1, hF1frame, hF1eq⟩ :=
      evalGates_sound gates hnd ord1 h1 harity _ hargs
    obtain ⟨F2, hF2, hF2frame, hF2eq⟩ :=
      evalGates_sound gates hnd ord2 h2 harity _ hargs
    have heq : F1 = F2 := by
      funext s
      exact fixpoint_unique gates ord1 h1 (setInputs sig inputs vals) F1 F2
        (fun s hs => hF1frame s (fun h => hs (h1.2.1 s h)))
        (fun g hg => (hF1eq g hg).1)
        (fun s hs => hF2frame s (fun h => hs (h2.2.1 s h)))
        (fun g hg => (hF2eq g hg).1) s
    simp only [runEvents, hF1, hF2, ← heq]
    cases hrec : record F1 (inputs ++ outputs) w with
    | error e' => rfl
    | ok w2 => exact ih F1 w2 (fun e' he' => hstim e' (by simp [he']))

/-- **C8.** For every valid netlist, the traces produced by the per-event
evaluation engine are bit-for-bit independent of which complete valid
topological order is used to evaluate the gates. -/
theorem C8_order_independent (nl : Netlist)
    (hnd : (gateNames nl.gates).Nodup)
    (harity : ∀ g ∈ nl.gates, arityOk g)
    (hcov : ∀ g ∈ nl.gates, ∀ a ∈ g.inputs,
      a ∈ nl.inputs ∨ a ∈ gateNames nl.gates)
    (hstim : ∀ e ∈ nl.stimuli, e.2.length = nl.inputs.length)
    (ord1 ord2 : List String)
    (h1 : ValidTopoOrder nl.gates ord1) (h2 : ValidTopoOrder nl.gates ord2) :
    runEvents nl.inputs nl.outputs nl.gates ord1 nl.stimuli
      (fun _ => none) (fun _ => "") =
    runEvents nl.inputs nl.outputs nl.gates ord2 nl.stimuli
      (fun _ => none) (fun _ => "") :=
  runEvents_order_irrelevant nl.inputs nl.outputs nl.gates hnd harity hcov
    ord1 ord2 h1 h2 nl.stimuli (fun _ => none) (fun _ => "") hstim

/-- Witness for `C8_order_independent` on the one-gate netlist. -/
theorem C8_order_independent_witness :
    (let nl : Netlist := ⟨["A", "B"], ["C"], [⟨"C", GType.AND, ["A", "B"]⟩],
      [(0, ["0", "0"])]⟩
    (gateNames nl.gates).Nodup ∧ (∀ g ∈ nl.gates, arityOk g) ∧
    (∀ g ∈ nl.gates, ∀ a ∈ g.inputs,
      a ∈ nl.inputs ∨ a ∈ gateNames nl.gates) ∧
    (∀ e ∈ nl.stimuli, e.2.length = nl.inputs.length) ∧
    ValidTopoOrder nl.gates ["C"] ∧
    runEvents nl.inputs nl.outputs nl.gates ["C"] nl.stimuli
      (fun _ => none) (fun _ => "") =
    runEvents nl.inputs nl.outputs nl.gates ["C"] nl.stimuli
      (fun _ => none) (fun _ => "")) :=
  ⟨by decide, by decide, by decide, by decide, by decide,
    C8_order_independent _ (by decide) (by decide) (by decide) (by decide)
      ["C"] ["C"] (by decide) (by decide)⟩

/-- **C5, amended.** A gate argument that names neither a primary input
nor any gate's output is not detected at resolution time (`topo_sort`
filters it out like a primary input); whenever resolution succeeds and at
least one stimulus event exists, the run instead fails with a `KeyError`
lookup failure while simulating the first event. -/
theorem C5_undefined_arg_sim_failure (nl : Netlist)
    (hnd : (gateNames nl.gates).Nodup)
    (harity : ∀ g ∈ nl.gates, arityOk g)
    (g0 : Gate) (hg0 : g0 ∈ nl.gates) (a0 : String) (ha0 : a0 ∈ g0.inputs)
    (ha0in : a0 ∉ nl.inputs) (ha0N : a0 ∉ gateNames nl.gates)
    (ord : List String) (hok : topo_sort nl.gates = Except.ok ord)
    (ev : Int × List String) (rest : List (Int × List String))
    (hstim : nl.stimuli = ev :: rest) :
    ∃ s, simulate nl = Except.error (SimErr.keyError s) := by
  obtain ⟨⟨hndO, hsubO, hcomp, htopo⟩, -⟩ := topo_sort_ok_valid nl.gates hnd hok
  obtain ⟨t0, vals⟩ := ev
  have hsig1a0 : setInputs (fun _ => none) nl.inputs vals a0 = none := by
    rw [setInputs_not_mem _ _ _ _ ha0in]
  have hfail : ∀ F,
      evalGates nl.gates ord (setInputs (fun _ => none) nl.inputs vals) ≠
        Except.ok F := by
    intro F hF
    rcases evalGates_ok_arg nl.gates hnd ord _ F hF g0 hg0 (hcomp g0 hg0)
      a0 ha0 with h | h
    · exact h hsig1a0
    · exact ha0N (hsubO a0 h)
  cases hev : evalGates nl.gates ord
      (setInputs (fun _ => none) nl.inputs vals) with
  | ok F => exact absurd hev (hfail F)
  | error e =>
    obtain ⟨s, hs⟩ := evalGates_error_shape nl.gates hnd ord hsubO harity
      _ e hev
    refine ⟨s, ?_⟩
    simp only [simulate, hok]
    rw [hstim]
    simp only [runEvents, hev, hs]

/-- Witness for `C5_undefined_arg_sim_failure` on the netlist with the
undefined argument `Z`. -/
theorem C5_undefined_arg_sim_failure_witness :
    (gateNames nlUndefArg.gates).Nodup ∧
    (∀ g ∈ nlUndefArg.gates, arityOk g) ∧
    (⟨"C", GType.AND, ["A", "Z"]⟩ : Gate) ∈ nlUndefArg.gates ∧
    "Z" ∈ (⟨"C", GType.AND, ["A", "Z"]⟩ : Gate).inputs ∧
    "Z" ∉ nlUndefArg.inputs ∧ "Z" ∉ gateNames nlUndefArg.gates ∧
    topo_sort nlUndefArg.gates = Except.ok ["C"] ∧
    nlUndefArg.stimuli = (0, ["0", "0"]) :: [] ∧
    ∃ s, simulate nlUndefArg = Except.error (SimErr.keyError s) :=
  ⟨by decide, by decide, by decide, by decide, by decide, by decide,
    by decide, by decide,
    C5_undefined_arg_sim_failure nlUndefArg (by decide) (by decide)
      ⟨"C", GType.AND, ["A", "Z"]⟩ (by decide) "Z" (by decide) (by decide)
      (by decide) ["C"] (by decide) (0, ["0", "0"]) [] (by decide)⟩

/-- **C10.** The parser accepts a document whose OUTPUTS list contains a
name defined neither as a primary input nor as a gate output.  For such a
parsed netlist (otherwise valid), an empty stimulus list simulates
successfully with an empty trace for that name, while at least one
stimulus event makes `simulate` fail with a `KeyError` lookup failure on
an undefined output while recording the traces. -/
theorem C10_undefined_output (text : String) (nl : Netlist)
    (hparse : parse_netlist text = Except.ok nl)
    (hnd : (gateNames nl.gates).Nodup)
    (harity : ∀ g ∈ nl.gates, arityOk g)
    (hcov : ∀ g ∈ nl.gates, ∀ a ∈ g.inputs,
      a ∈ nl.inputs ∨ a ∈ gateNames nl.gates)
    (X : String) (hXout : X ∈ nl.outputs) (hXin : X ∉ nl.inputs)
    (hXN : X ∉ gateNames nl.gates)
    (ord : List String) (hok : topo_sort nl.gates = Except.ok ord)
    (hstimlen : ∀ e ∈ nl.stimuli, e.2.length = nl.inputs.length) :
    (nl.stimuli = [] → ∃ w, simulate nl = Except.ok w ∧ w X = "") ∧
    (∀ ev rest, nl.stimuli = ev :: rest →
      ∃ s, s ∈ nl.outputs ∧ s ∉ nl.inputs ∧ s ∉ gateNames nl.gates ∧
        simulate nl = Except.error (SimErr.keyError s)) := by
  obtain ⟨hvt, -⟩ := topo_sort_ok_valid nl.gates hnd hok
  constructor
  · intro hempty
    refine ⟨fun _ => "", ?_, rfl⟩
    simp only [simulate, hok]
    rw [hempty]
    rfl
  · intro ev rest hstim
    obtain ⟨t0, vals⟩ := ev
    have hvlen : vals.length = nl.inputs.length := by
      have := hstimlen (t0, vals) (by rw [hstim]; simp)
      exact this
    have hargs : ∀ g ∈ nl.gates, ∀ a ∈ g.inputs, a ∉ gateNames nl.gates →
        ((setInputs (fun _ => none) nl.inputs vals) a).isSome := by
      intro g hg a ha haN
      rcases hcov g hg a ha with h | h
      · exact setInputs_isSome_of_mem _ nl.inputs vals a hvlen h
      · exact absurd h haN
    obtain ⟨F, hF, hFframe, hFeq⟩ := evalGates_sound nl.gates hnd ord hvt
      harity (setInputs (fun _ => none) nl.inputs vals) hargs
    have hFX : F X = none := by
      have hXo : X ∉ ord := fun h => hXN (hvt.2.1 X h)
      rw [hFframe X hXo, setInputs_not_mem _ _ _ _ hXin]
    obtain ⟨s, hsL, hsnone, herr⟩ := record_fail_of_none F
      (nl.inputs ++ nl.outputs) (fun _ => "")
      ⟨X, List.mem_append_right _ hXout, hFX⟩
    have hsin : s ∉ nl.inputs := by
      intro h
      by_cases hsN : s ∈ gateNames nl.gates
      · obtain ⟨g, hg, hname⟩ := List.mem_map.mp hsN
        have := (hFeq g hg).2
        rw [hname, hsnone] at this
        cases this
      · have hso : s ∉ ord := fun h' => hsN (hvt.2.1 s h')
        rw [hFframe s hso] at hsnone
        have := setInputs_isSome_of_mem (fun _ => none) nl.inputs vals s
          hvlen h
        rw [hsnone] at this
        cases this
    have hsN : s ∉ gateNames nl.gates := by
      intro hsN
      obtain ⟨g, hg, hname⟩ := List.mem_map.mp hsN
      have := (hFeq g hg).2
      rw [hname, hsnone] at this
      cases this
    have hsout : s ∈ nl.outputs := by
      rcases List.mem_append.mp hsL with h | h
      · exact absurd h hsin
      · exact h
    refine ⟨s, hsout, hsin, hsN, ?_⟩
    simp only [simulate, hok]
    rw [hstim]
    simp only [runEvents, hF, herr]

/-- Witness for `C10_undefined_output` on the document with the undefined
output `X` and one stimulus event. -/
theorem C10_undefined_output_witness :
    (let nl : Netlist := ⟨["A"], ["X"], [⟨"Y", GType.NOT, ["A"]⟩],
      [(0, ["1"])]⟩
    parse_netlist docUndefOut = Except.ok nl ∧
    (gateNames nl.gates).Nodup ∧ (∀ g ∈ nl.gates, arityOk g) ∧
    (∀ g ∈ nl.gates, ∀ a ∈ g.inputs,
      a ∈ nl.inputs ∨ a ∈ gateNames nl.gates) ∧
    "X" ∈ nl.outputs ∧ "X" ∉ nl.inputs ∧ "X" ∉ gateNames nl.gates ∧
    topo_sort nl.gates = Except.ok ["Y"] ∧
    (∀ e ∈ nl.stimuli, e.2.length = nl.inputs.length) ∧
    ((nl.stimuli = [] → ∃ w, simulate nl = Except.ok w ∧ w "X" = "") ∧
      (∀ ev rest, nl.stimuli = ev :: rest →
        ∃ s, s ∈ nl.outputs ∧ s ∉ nl.inputs ∧ s ∉ gateNames nl.gates ∧
          simulate nl = Except.error (SimErr.keyError s)))) :=
  ⟨by decide, by decide, by decide, by decide, by decide, by decide,
    by decide, by decide, by decide,
    C10_undefined_output docUndefOut _ (by decide) (by decide) (by decide)
      (by decide) "X" (by decide) (by decide) (by decide) ["Y"] (by decide)
      (by decide)⟩
